import Mathlib

/-!
Shallow embedding of the single-instrument limit order book of the
OrderBookEngine repository.

Sources embedded:
* `types.hpp` (src/unnamed/part_014): the scalar aliases, Side, OrderType,
  OrderStatus, ErrorCode.
* `order.hpp` (quoted in src/docs/CODE_WALKTHROUGH.md §4, exercised by the
  unit tests in src/unnamed/part_010): Order, remaining_quantity, is_filled,
  is_active, fill, cancel, validate_order.
* `price_level.cpp` (src/unnamed/part_007, the variant without
  reduce_quantity) and the variant src/unnamed/part_006 (with
  reduce_quantity): PriceLevel.
* `order_book.cpp` (src/cpp/src/order_book.cpp) and the variant
  src/unnamed/part_005: OrderBook.

Modelling conventions:
* The scalar aliases of types.hpp map to plain Lean types, written out at
  every use so that arithmetic automation sees them: Quantity (uint64_t)
  is `Nat`; Price (int64_t) is `Int`; OrderId and TradeId (uint64_t) are
  `Nat`.  The 64-bit wrap-around of the C++ types is not modelled: on the
  operations below the
  only subtractions are `quantity - filled_quantity` (the code keeps
  `filled_quantity ≤ quantity` because `Order::fill` caps at the remaining)
  and the decrements of a level's cached `total_quantity_`, which never
  exceed the cached value on states produced by the public operations, so
  truncated `Nat` subtraction agrees with the source.
* Timestamps (`std::chrono::steady_clock`) are wall-clock data with no
  influence on any branch of the engine; they are omitted from the model.
* `std::map<Price, PriceLevel>` is a list of `(key, level)` pairs kept in
  the map's iteration order (descending keys for `bids_`, ascending for
  `asks_`); `begin()` is the head of the list.
* The orders rest inside the levels by value.  The C++ book additionally
  keeps the redundant hash map `order_lookup_` (`by_id`) from id to
  (side, price, list-iterator, pointer); on every state produced by the
  public operations it contains exactly the orders resident in the two side
  indices (spec invariant I1: `add_to_book` inserts into both, the two
  removal paths erase from both), so the model realises `by_id` as the
  derived lookup `OrderBook.lookupOrder` that scans the levels, and a
  position token (`OrderLocation`/list iterator) as the id of the order
  inside its level.
-/

namespace OrderBookEngine

/-- `Side` from types.hpp. -/
inductive Side where
  | Buy
  | Sell
deriving DecidableEq, Repr

/-- `OrderType` from types.hpp. -/
inductive OrderType where
  | Limit
  | Market
deriving DecidableEq, Repr

/-- `OrderStatus` from types.hpp. -/
inductive OrderStatus where
  | New
  | PartiallyFilled
  | Filled
  | Cancelled
  | Rejected
deriving DecidableEq, Repr

/-- `ErrorCode` from types.hpp. -/
inductive ErrorCode where
  | Success
  | OrderNotFound
  | InvalidQuantity
  | InvalidPrice
  | InvalidSide
  | InvalidOrderType
  | BookNotFound
  | InsufficientLiquidity
  | OrderAlreadyCancelled
  | OrderAlreadyFilled
deriving DecidableEq, Repr

/-- `Order` from order.hpp (CODE_WALKTHROUGH.md §4); the creation timestamp
is omitted (wall-clock data, never read by the engine). -/
structure Order where
  id : Nat
  symbol : String
  side : Side
  type : OrderType
  quantity : Nat
  filled_quantity : Nat
  price : Int
  status : OrderStatus
deriving DecidableEq, Repr

namespace Order

/-- `Order::remaining_quantity`: `quantity - filled_quantity`. -/
def remaining_quantity (o : Order) : Nat :=
  o.quantity - o.filled_quantity

/-- `Order::is_filled`: `filled_quantity >= quantity`. -/
def is_filled (o : Order) : Bool :=
  o.quantity ≤ o.filled_quantity

/-- `Order::is_active`: status is New or PartiallyFilled. -/
def is_active (o : Order) : Bool :=
  o.status = OrderStatus.New || o.status = OrderStatus.PartiallyFilled

/-- `Order::is_buy`. -/
def is_buy (o : Order) : Bool := o.side = Side.Buy

/-- `Order::is_sell`. -/
def is_sell (o : Order) : Bool := o.side = Side.Sell

/-- `Order::is_limit`. -/
def is_limit (o : Order) : Bool := o.type = OrderType.Limit

/-- `Order::is_market`. -/
def is_market (o : Order) : Bool := o.type = OrderType.Market

/-- `Order::fill` (CODE_WALKTHROUGH.md §4): caps the fill at the remaining
quantity, bumps `filled_quantity`, and sets the status to Filled or
PartiallyFilled.  The C++ method also returns the actual fill, which every
caller in the engine discards, so the model returns only the updated order. -/
def fill (o : Order) (fill_qty : Nat) : Order :=
  let actual := min fill_qty o.remaining_quantity
  if 0 < actual then
    { o with
      filled_quantity := o.filled_quantity + actual,
      status :=
        if o.quantity ≤ o.filled_quantity + actual then OrderStatus.Filled
        else OrderStatus.PartiallyFilled }
  else o

/-- `Order::cancel`.  Modelled from the spec: order.hpp's body is not under
src/; spec §4.3.2 sets the status to Cancelled, and the unit tests
(src/unnamed/part_010) show it succeeds exactly on active orders and leaves
Filled/Cancelled orders untouched.  The book only calls it after ruling out
the Filled and Cancelled statuses, where it unconditionally sets Cancelled;
the Bool result is discarded by the book, so the model returns the order. -/
def cancel (o : Order) : Order :=
  if o.is_active then { o with status := OrderStatus.Cancelled } else o

end Order

/-- `validate_order` from order.hpp (CODE_WALKTHROUGH.md §4, exercised by
src/unnamed/part_010): zero quantity, a non-positive price on a limit order,
and an empty symbol are rejected, in that order of checks. -/
def validate_order (o : Order) : ErrorCode :=
  if o.quantity = 0 then ErrorCode.InvalidQuantity
  else if o.type = OrderType.Limit ∧ o.price ≤ 0 then ErrorCode.InvalidPrice
  else if o.symbol = "" then ErrorCode.BookNotFound
  else ErrorCode.Success

/-- `Trade` from trade.hpp (src/unnamed/part_015, second file); the
timestamp is omitted (wall-clock data). -/
structure Trade where
  id : Nat
  buy_order_id : Nat
  sell_order_id : Nat
  symbol : String
  price : Int
  quantity : Nat
  aggressor_side : Side
deriving DecidableEq, Repr

namespace Trade

/-- `Trade::aggressor_order_id`. -/
def aggressor_order_id (t : Trade) : Nat :=
  if t.aggressor_side = Side.Buy then t.buy_order_id else t.sell_order_id

/-- `Trade::passive_order_id`. -/
def passive_order_id (t : Trade) : Nat :=
  if t.aggressor_side = Side.Buy then t.sell_order_id else t.buy_order_id

end Trade

/-- `PriceLevel` from price_level.hpp (src/unnamed/part_015): a price, the
cached sum `total_quantity_`, and the resident orders in FIFO arrival order
(head = earliest).  The C++ list holds `Order*`; the model holds the order
values. -/
structure PriceLevel where
  price : Int
  total_quantity : Nat
  orders : List Order
deriving DecidableEq, Repr

namespace PriceLevel

/-- `PriceLevel::add_order` (src/unnamed/part_007 and part_006, identical):
push to the back of the queue and add the order's remaining quantity to the
cached total.  The returned iterator is realised as the order's id. -/
def add_order (l : PriceLevel) (o : Order) : PriceLevel :=
  { l with
    orders := l.orders ++ [o],
    total_quantity := l.total_quantity + o.remaining_quantity }

/-- `PriceLevel::remove_order` (src/unnamed/part_007 and part_006,
identical): subtract the removed order's current remaining quantity from
the cached total, then erase it from the list.  The iterator argument is
realised as the id of the resident order; a stale id (no resident order
carries it) is the C++ programmer-error case and leaves the level
unchanged. -/
def remove_order (l : PriceLevel) (oid : Nat) : PriceLevel :=
  match l.orders.find? (fun o => o.id = oid) with
  | some o =>
      { l with
        orders := l.orders.eraseP (fun x => x.id = oid),
        total_quantity := l.total_quantity - o.remaining_quantity }
  | none => l

/-- `PriceLevel::reduce_quantity` (src/unnamed/part_006 only): explicitly
subtract a filled amount from the cached total. -/
def reduce_quantity (l : PriceLevel) (qty : Nat) : PriceLevel :=
  { l with total_quantity := l.total_quantity - qty }

/-- `PriceLevel::order_count`. -/
def order_count (l : PriceLevel) : Nat := l.orders.length

/-- `PriceLevel::empty`. -/
def empty (l : PriceLevel) : Bool := l.orders.isEmpty

/-- `PriceLevel::front`: the earliest-arrived resident order. -/
def front (l : PriceLevel) : Option Order := l.orders.head?

end PriceLevel

/-- One side index of the book: a `std::map<Int, PriceLevel>` as the list
of its `(key, level)` entries in iteration order (descending keys for
`bids_`, ascending for `asks_`). -/
abbrev SideBook := List (Int × PriceLevel)

/-- `OrderBook::prices_cross` (src/cpp/src/order_book.cpp and
src/unnamed/part_005, identical): market orders cross any price; a buy
limit crosses iff `incoming->price >= resting_price`; a sell limit crosses
iff `incoming->price <= resting_price`. -/
def prices_cross (incoming : Order) (resting_price : Int) : Bool :=
  if incoming.is_market then true
  else if incoming.is_buy then resting_price ≤ incoming.price
  else incoming.price ≤ resting_price

/-- Result of the fill loop inside one price level. -/
structure LevelRun where
  incoming : Order
  total : Nat
  orders : List Order
  trades : List Trade
  tid : Nat
deriving Repr

/-- The inner fill loop of `OrderBook::match_order`
(src/cpp/src/order_book.cpp lines 87-113): while the incoming order has
remaining quantity and the level is non-empty, fill the head resting order,
emit a trade at the level's resting price, and, once the head is fully
filled, remove it from the level via `PriceLevel::remove_order` (which
subtracts the head's post-fill remaining quantity, by then zero, from the
cached total) and erase it from `by_id`.  `total` threads the level's
cached `total_quantity_`; `tid` threads `next_trade_id_`, whose
pre-increment yields `tid + 1` on each trade. -/
def matchLevelLoop (sym : String) (resting_price : Int) :
    Order → Nat → Nat → List Order → LevelRun
  | incoming, tid, total, [] =>
      { incoming := incoming, total := total, orders := [], trades := [], tid := tid }
  | incoming, tid, total, resting :: rest =>
      if incoming.remaining_quantity = 0 then
        { incoming := incoming, total := total, orders := resting :: rest,
          trades := [], tid := tid }
      else
        let fill_qty := min incoming.remaining_quantity resting.remaining_quantity
        let inc := incoming.fill fill_qty
        let res := resting.fill fill_qty
        let t : Trade :=
          { id := tid + 1,
            buy_order_id := if incoming.is_buy then incoming.id else resting.id,
            sell_order_id := if incoming.is_sell then incoming.id else resting.id,
            symbol := sym,
            price := resting_price,
            quantity := fill_qty,
            aggressor_side := incoming.side }
        if res.is_filled then
          let r := matchLevelLoop sym resting_price inc (tid + 1)
            (total - res.remaining_quantity) rest
          { r with trades := t :: r.trades }
        else
          { incoming := inc, total := total, orders := res :: rest,
            trades := [t], tid := tid + 1 }

/-- Result of the matching sweep over the opposite side index. -/
structure BookRun where
  incoming : Order
  tid : Nat
  levels : SideBook
  trades : List Trade
deriving Repr

/-- The outer while loop of `OrderBook::match_order`
(src/cpp/src/order_book.cpp lines 77-118): take the best (first) level of
the opposite side, stop when the incoming order is exhausted or the prices
no longer cross, run the fill loop inside the level, and evict the level's
entry when it has been emptied.  When the fill loop leaves the level
non-empty the incoming order's remaining quantity is zero (the loop's exit
condition), so the re-checked while guard fails and the sweep stops. -/
def matchBookLoop (sym : String) : Order → Nat → SideBook → BookRun
  | incoming, tid, [] =>
      { incoming := incoming, tid := tid, levels := [], trades := [] }
  | incoming, tid, (p, l) :: rest =>
      if incoming.remaining_quantity = 0 then
        { incoming := incoming, tid := tid, levels := (p, l) :: rest, trades := [] }
      else if prices_cross incoming p = false then
        { incoming := incoming, tid := tid, levels := (p, l) :: rest, trades := [] }
      else
        let r := matchLevelLoop sym p incoming tid l.total_quantity l.orders
        if r.orders.isEmpty then
          let r2 := matchBookLoop sym r.incoming r.tid rest
          { r2 with trades := r.trades ++ r2.trades }
        else
          { incoming := r.incoming, tid := r.tid,
            levels := (p, { l with total_quantity := r.total, orders := r.orders }) :: rest,
            trades := r.trades }

/-- `OrderBook` state (order_book.hpp, src/unnamed/part_011): the symbol,
the two side indices, and the trade-id counter (initialised to 0,
pre-incremented).  `order_lookup_` is realised as the derived lookup over
the levels (see the header comment). -/
structure OrderBook where
  symbol : String
  bids : SideBook
  asks : SideBook
  next_trade_id : Nat
deriving DecidableEq, Repr

namespace OrderBook

/-- The `OrderBook(symbol)` constructor: empty sides, counter 0. -/
def make (symbol : String) : OrderBook :=
  { symbol := symbol, bids := [], asks := [], next_trade_id := 0 }

/-- `OrderBook::get_or_create_level` followed by `PriceLevel::add_order`,
fused over one side index: `book[price]` default-constructs a fresh level
(re-initialised to the price) when the key is absent, inserting it at the
map's ordered position; `before` is the map's key order (`>` for `bids_`,
`<` for `asks_`). -/
def addToLevels (before : Int → Int → Bool) (price : Int) (o : Order) :
    SideBook → SideBook
  | [] => [(price, (PriceLevel.mk price 0 []).add_order o)]
  | (p, l) :: rest =>
      if price = p then (p, l.add_order o) :: rest
      else if before price p then
        (price, (PriceLevel.mk price 0 []).add_order o) :: (p, l) :: rest
      else (p, l) :: addToLevels before price o rest

/-- `OrderBook::add_to_book` (src/cpp/src/order_book.cpp lines 123-133):
append the order to the (possibly new) level at its price on its own side
and register it in `by_id` (derived here). -/
def add_to_book (b : OrderBook) (o : Order) : OrderBook :=
  match o.side with
  | Side.Buy => { b with bids := addToLevels (fun x y => y < x) o.price o b.bids }
  | Side.Sell => { b with asks := addToLevels (fun x y => x < y) o.price o b.asks }

/-- `OrderBook::remove_from_book` (src/cpp/src/order_book.cpp lines
135-146) over one side index: find the level at the location's price,
remove the order through its stored position token, and erase the level's
entry when it became empty. -/
def removeFromLevels (price : Int) (oid : Nat) : SideBook → SideBook
  | [] => []
  | (p, l) :: rest =>
      if p = price then
        let l2 := l.remove_order oid
        if l2.orders.isEmpty then rest else (p, l2) :: rest
      else (p, l) :: removeFromLevels price oid rest

/-- Lookup in one side index: the first resident order carrying the id,
with the key of its level. -/
def findInLevels (oid : Nat) : SideBook → Option (Int × Order)
  | [] => none
  | (p, l) :: rest =>
      match l.orders.find? (fun o => o.id = oid) with
      | some o => some (p, o)
      | none => findInLevels oid rest

/-- The derived `order_lookup_` (`by_id`): the location and current state of
the resident order with the given id, if any (see the header comment for
why this realises the C++ hash map on states produced by the public
operations). -/
def lookupOrder (b : OrderBook) (oid : Nat) : Option (Side × Int × Order) :=
  match findInLevels oid b.bids with
  | some (p, o) => some (Side.Buy, p, o)
  | none =>
      match findInLevels oid b.asks with
      | some (p, o) => some (Side.Sell, p, o)
      | none => none

/-- `OrderBook::match_order` (src/cpp/src/order_book.cpp lines 74-121):
sweep the opposite side (`asks_` for an incoming buy, `bids_` for an
incoming sell).  Returns the updated incoming order, the updated book, and
the trades in emission order. -/
def match_order (b : OrderBook) (incoming : Order) : Order × OrderBook × List Trade :=
  if incoming.is_buy then
    let r := matchBookLoop b.symbol incoming b.next_trade_id b.asks
    (r.incoming, { b with asks := r.levels, next_trade_id := r.tid }, r.trades)
  else
    let r := matchBookLoop b.symbol incoming b.next_trade_id b.bids
    (r.incoming, { b with bids := r.levels, next_trade_id := r.tid }, r.trades)

/-- `OrderBook::add_order` (src/cpp/src/order_book.cpp lines 10-26):
validate (setting status Rejected on failure), match, and rest the residual
of a limit order on its own side.  Returns the updated incoming order, the
emitted trades, and the updated book. -/
def add_order (b : OrderBook) (order : Order) : Order × List Trade × OrderBook :=
  if validate_order order ≠ ErrorCode.Success then
    ({ order with status := OrderStatus.Rejected }, [], b)
  else
    let r := b.match_order order
    if 0 < r.1.remaining_quantity ∧ r.1.is_limit then
      (r.1, r.2.2, r.2.1.add_to_book r.1)
    else
      (r.1, r.2.2, r.2.1)

/-- `OrderBook::cancel_order` (src/cpp/src/order_book.cpp lines 28-49):
unknown id yields OrderNotFound; a Cancelled or Filled order (impossible
while resident on states produced by the public operations) yields the
corresponding error; otherwise the order is cancelled, removed from its
level (evicting the level when emptied) and erased from `by_id`. -/
def cancel_order (b : OrderBook) (oid : Nat) : OrderBook × ErrorCode :=
  match b.lookupOrder oid with
  | none => (b, ErrorCode.OrderNotFound)
  | some (side, price, o) =>
      if o.status = OrderStatus.Cancelled then (b, ErrorCode.OrderAlreadyCancelled)
      else if o.status = OrderStatus.Filled then (b, ErrorCode.OrderAlreadyFilled)
      else
        let b2 :=
          match side with
          | Side.Buy => { b with bids := removeFromLevels price oid b.bids }
          | Side.Sell => { b with asks := removeFromLevels price oid b.asks }
        (b2, ErrorCode.Success)

/-- `OrderBook::best_bid`: key of the first bid level. -/
def best_bid (b : OrderBook) : Option Int := b.bids.head?.map (fun pl => pl.1)

/-- `OrderBook::best_ask`: key of the first ask level. -/
def best_ask (b : OrderBook) : Option Int := b.asks.head?.map (fun pl => pl.1)

/-- `OrderBook::spread`: `best_ask - best_bid` when both exist. -/
def spread (b : OrderBook) : Option Int :=
  match b.best_bid, b.best_ask with
  | some bid, some ask => some (ask - bid)
  | _, _ => none

/-- `OrderBook::volume_at_price`: the cached `total_quantity` of the level
at that exact price on that side, 0 when absent. -/
def volume_at_price (b : OrderBook) (side : Side) (price : Int) : Nat :=
  let book := if side = Side.Buy then b.bids else b.asks
  match book.find? (fun pl => pl.1 = price) with
  | some pl => pl.2.total_quantity
  | none => 0

/-- All resident orders of one side index, in level-then-arrival order. -/
def sideOrders (s : SideBook) : List Order := (s.map (fun pl => pl.2.orders)).flatten

/-- `OrderBook::order_count`: `order_lookup_.size()`, realised as the
number of resident orders (I1). -/
def order_count (b : OrderBook) : Nat :=
  (sideOrders b.bids).length + (sideOrders b.asks).length

/-- `OrderBook::empty`: no resident orders. -/
def is_empty (b : OrderBook) : Bool := b.order_count = 0

/-- `OrderBook::bid_levels`. -/
def bid_levels (b : OrderBook) : Nat := b.bids.length

/-- `OrderBook::ask_levels`. -/
def ask_levels (b : OrderBook) : Nat := b.asks.length

/-- The opposite-side index for an incoming order of the given side
(`asks_` for a buy, `bids_` for a sell). -/
def oppositeLevels (b : OrderBook) (side : Side) : SideBook :=
  match side with
  | Side.Buy => b.asks
  | Side.Sell => b.bids

end OrderBook

/-- The inner fill loop of the second `OrderBook::match_order` in the
repository (src/unnamed/part_005 lines 91-117, paired with the PriceLevel
of src/unnamed/part_006): identical to `matchLevelLoop` except that it
calls `level.reduce_quantity(fill_qty)` on every fill, so the cached total
drops by `fill_qty` before the (then zero-valued) subtraction performed by
`remove_order` on a full fill. -/
def matchLevelLoopV2 (sym : String) (resting_price : Int) :
    Order → Nat → Nat → List Order → LevelRun
  | incoming, tid, total, [] =>
      { incoming := incoming, total := total, orders := [], trades := [], tid := tid }
  | incoming, tid, total, resting :: rest =>
      if incoming.remaining_quantity = 0 then
        { incoming := incoming, total := total, orders := resting :: rest,
          trades := [], tid := tid }
      else
        let fill_qty := min incoming.remaining_quantity resting.remaining_quantity
        let inc := incoming.fill fill_qty
        let res := resting.fill fill_qty
        let t : Trade :=
          { id := tid + 1,
            buy_order_id := if incoming.is_buy then incoming.id else resting.id,
            sell_order_id := if incoming.is_sell then incoming.id else resting.id,
            symbol := sym,
            price := resting_price,
            quantity := fill_qty,
            aggressor_side := incoming.side }
        if res.is_filled then
          let r := matchLevelLoopV2 sym resting_price inc (tid + 1)
            (total - fill_qty - res.remaining_quantity) rest
          { r with trades := t :: r.trades }
        else
          { incoming := inc, total := total - fill_qty, orders := res :: rest,
            trades := [t], tid := tid + 1 }

/-- The outer sweep of the second `OrderBook::match_order`
(src/unnamed/part_005 lines 78-132): identical control flow to
`matchBookLoop`, delegating to `matchLevelLoopV2`. -/
def matchBookLoopV2 (sym : String) : Order → Nat → SideBook → BookRun
  | incoming, tid, [] =>
      { incoming := incoming, tid := tid, levels := [], trades := [] }
  | incoming, tid, (p, l) :: rest =>
      if incoming.remaining_quantity = 0 then
        { incoming := incoming, tid := tid, levels := (p, l) :: rest, trades := [] }
      else if prices_cross incoming p = false then
        { incoming := incoming, tid := tid, levels := (p, l) :: rest, trades := [] }
      else
        let r := matchLevelLoopV2 sym p incoming tid l.total_quantity l.orders
        if r.orders.isEmpty then
          let r2 := matchBookLoopV2 sym r.incoming r.tid rest
          { r2 with trades := r.trades ++ r2.trades }
        else
          { incoming := r.incoming, tid := r.tid,
            levels := (p, { l with total_quantity := r.total, orders := r.orders }) :: rest,
            trades := r.trades }

namespace OrderBook

/-- `OrderBook::match_order` of src/unnamed/part_005 (the generic-lambda
formulation dispatching on the side is behaviourally the ternary of the
first implementation). -/
def match_orderV2 (b : OrderBook) (incoming : Order) : Order × OrderBook × List Trade :=
  if incoming.is_buy then
    let r := matchBookLoopV2 b.symbol incoming b.next_trade_id b.asks
    (r.incoming, { b with asks := r.levels, next_trade_id := r.tid }, r.trades)
  else
    let r := matchBookLoopV2 b.symbol incoming b.next_trade_id b.bids
    (r.incoming, { b with bids := r.levels, next_trade_id := r.tid }, r.trades)

/-- `OrderBook::add_order` of src/unnamed/part_005 (lines 10-26, textually
identical to the first implementation, delegating to `match_orderV2`;
`add_to_book`, `cancel_order` and the queries of the two translation units
are behaviourally identical and shared by the model). -/
def add_orderV2 (b : OrderBook) (order : Order) : Order × List Trade × OrderBook :=
  if validate_order order ≠ ErrorCode.Success then
    ({ order with status := OrderStatus.Rejected }, [], b)
  else
    let r := b.match_orderV2 order
    if 0 < r.1.remaining_quantity ∧ r.1.is_limit then
      (r.1, r.2.2, r.2.1.add_to_book r.1)
    else
      (r.1, r.2.2, r.2.1)

end OrderBook

/-- A caller-driven command on the book: a submission or a cancellation. -/
inductive Cmd where
  | submit (o : Order)
  | cancel (oid : Nat)
deriving DecidableEq, Repr

/-- The observable result of one command: the returned trade list of a
submission, or the error code of a cancellation. -/
inductive Out where
  | fills (ts : List Trade)
  | err (e : ErrorCode)
deriving DecidableEq, Repr

/-- Run a command sequence through the first implementation
(src/cpp/src/order_book.cpp with the PriceLevel of src/unnamed/part_007). -/
def runBook : OrderBook → List Cmd → OrderBook × List Out
  | b, [] => (b, [])
  | b, Cmd.submit o :: cs =>
      let r := b.add_order o
      let k := runBook r.2.2 cs
      (k.1, Out.fills r.2.1 :: k.2)
  | b, Cmd.cancel oid :: cs =>
      let r := b.cancel_order oid
      let k := runBook r.1 cs
      (k.1, Out.err r.2 :: k.2)

/-- Run a command sequence through the second implementation
(src/unnamed/part_005 with the PriceLevel of src/unnamed/part_006). -/
def runBookV2 : OrderBook → List Cmd → OrderBook × List Out
  | b, [] => (b, [])
  | b, Cmd.submit o :: cs =>
      let r := b.add_orderV2 o
      let k := runBookV2 r.2.2 cs
      (k.1, Out.fills r.2.1 :: k.2)
  | b, Cmd.cancel oid :: cs =>
      let r := b.cancel_order oid
      let k := runBookV2 r.1 cs
      (k.1, Out.err r.2 :: k.2)

/-! ### Derived notions used in the statements -/

/-- Sum of the quantities of a trade list. -/
def sumQty (ts : List Trade) : Nat := (ts.map Trade.quantity).sum

/-- Sum of the remaining quantities of a list of orders. -/
def sumRem (os : List Order) : Nat := (os.map Order.remaining_quantity).sum

/-- Sum of the remaining quantities resident in one side index. -/
def sideRem (s : SideBook) : Nat := sumRem (OrderBook.sideOrders s)

/-- The immutable core of an order: everything except `filled_quantity` and
`status`, the only fields `Order.fill` touches. -/
def SameCore (a b : Order) : Prop :=
  a.id = b.id ∧ a.symbol = b.symbol ∧ a.side = b.side ∧ a.type = b.type ∧
  a.quantity = b.quantity ∧ a.price = b.price

/-- A side index with every cached level total zeroed: the part of the side
state that every operation except `volume_at_price` depends on. -/
def stripSide (s : SideBook) : SideBook :=
  s.map (fun pl => (pl.1, { pl.2 with total_quantity := 0 }))

/-- A book with every cached level total zeroed. -/
def OrderBook.stripTotals (b : OrderBook) : OrderBook :=
  { b with bids := stripSide b.bids, asks := stripSide b.asks }

/-- The ids of the orders resident in the book (the domain of `by_id`). -/
def OrderBook.residentIds (b : OrderBook) : List Nat :=
  (OrderBook.sideOrders b.bids ++ OrderBook.sideOrders b.asks).map Order.id

/-- Spec invariant I3: every bid price is below every ask price. -/
def NoCross (b : OrderBook) : Prop :=
  ∀ bp ∈ b.bids.map Prod.fst, ∀ ap ∈ b.asks.map Prod.fst, bp < ap

/-- The side indices are in map iteration order: bid keys strictly
descending, ask keys strictly ascending (the `std::map` comparators
`std::greater` and `std::less`). -/
def SortedSides (b : OrderBook) : Prop :=
  List.Pairwise (fun x y => y < x) (b.bids.map Prod.fst) ∧
  List.Pairwise (fun x y => x < y) (b.asks.map Prod.fst)

/-- The book states reachable through the public API from a fresh book:
any sequence of submissions and cancellations. -/
inductive Reachable : OrderBook → Prop where
  | make (symbol : String) : Reachable (OrderBook.make symbol)
  | add {b : OrderBook} (o : Order) : Reachable b → Reachable (b.add_order o).2.2
  | cancel {b : OrderBook} (oid : Nat) : Reachable b → Reachable (b.cancel_order oid).1

/-! ### Concrete fixtures used by witnesses and counterexamples -/

namespace Fx

def sym : String := "AAPL"

/-- A resting sell: id 1, 100 shares, limit 150 (scaled price units). -/
def sellBig : Order :=
  { id := 1, symbol := sym, side := Side.Sell, type := OrderType.Limit,
    quantity := 100, filled_quantity := 0, price := 150, status := OrderStatus.New }

/-- A partially crossing buy: id 2, 40 shares, limit 150. -/
def buySmall : Order :=
  { id := 2, symbol := sym, side := Side.Buy, type := OrderType.Limit,
    quantity := 40, filled_quantity := 0, price := 150, status := OrderStatus.New }

/-- Submit `sellBig` then `buySmall`: the buy partially fills the resting
sell, leaving it with 60 remaining at price 150. -/
def partialTrace : List Cmd := [Cmd.submit sellBig, Cmd.submit buySmall]

/-- The book of the first implementation after `partialTrace`. -/
def partialBook : OrderBook := (runBook (OrderBook.make sym) partialTrace).1

/-- A resting sell of 50 at 150. -/
def sellHalf : Order :=
  { id := 3, symbol := sym, side := Side.Sell, type := OrderType.Limit,
    quantity := 50, filled_quantity := 0, price := 150, status := OrderStatus.New }

/-- A market buy of 50 (price 0, the market-order sentinel). -/
def mktBuy : Order :=
  { id := 4, symbol := sym, side := Side.Buy, type := OrderType.Market,
    quantity := 50, filled_quantity := 0, price := 0, status := OrderStatus.New }

/-- The book holding only `sellHalf`. -/
def bookHalf : OrderBook := ((OrderBook.make sym).add_order sellHalf).2.2

/-- Two sells of 50 at 150, in FIFO arrival order A then B. -/
def fifoA : Order :=
  { id := 5, symbol := sym, side := Side.Sell, type := OrderType.Limit,
    quantity := 50, filled_quantity := 0, price := 150, status := OrderStatus.New }

def fifoB : Order :=
  { id := 6, symbol := sym, side := Side.Sell, type := OrderType.Limit,
    quantity := 50, filled_quantity := 0, price := 150, status := OrderStatus.New }

/-- The book holding `fifoA` then `fifoB` at the single ask level 150. -/
def fifoBook : OrderBook :=
  (runBook (OrderBook.make sym) [Cmd.submit fifoA, Cmd.submit fifoB]).1

/-- A buy of 50 at 150, exactly A's remaining. -/
def fifoBuy : Order :=
  { id := 7, symbol := sym, side := Side.Buy, type := OrderType.Limit,
    quantity := 50, filled_quantity := 0, price := 150, status := OrderStatus.New }

/-- A resting ask at 151 and a resting bid at 150 that do not cross. -/
def ask151 : Order :=
  { id := 21, symbol := sym, side := Side.Sell, type := OrderType.Limit,
    quantity := 10, filled_quantity := 0, price := 151, status := OrderStatus.New }

def bid150 : Order :=
  { id := 22, symbol := sym, side := Side.Buy, type := OrderType.Limit,
    quantity := 10, filled_quantity := 0, price := 150, status := OrderStatus.New }

/-- The reachable book holding one bid at 150 and one ask at 151. -/
def twoSided : OrderBook :=
  ((((OrderBook.make sym).add_order ask151).2.2).add_order bid150).2.2

/-- The book holding only the ask at 151. -/
def askBook : OrderBook := ((OrderBook.make sym).add_order ask151).2.2

/-- A fresh bid at 149 that does not cross the ask at 151. -/
def bid149 : Order :=
  { id := 23, symbol := sym, side := Side.Buy, type := OrderType.Limit,
    quantity := 10, filled_quantity := 0, price := 149, status := OrderStatus.New }

end Fx

/-! ### General lemmas about `Order.fill` and the matching loops -/

theorem sameCore_refl (o : Order) : SameCore o o :=
  ⟨rfl, rfl, rfl, rfl, rfl, rfl⟩

theorem sameCore_trans {a b c : Order} (h1 : SameCore a b) (h2 : SameCore b c) :
    SameCore a c := by
  obtain ⟨h1a, h1b, h1c, h1d, h1e, h1f⟩ := h1
  obtain ⟨h2a, h2b, h2c, h2d, h2e, h2f⟩ := h2
  exact ⟨h1a.trans h2a, h1b.trans h2b, h1c.trans h2c, h1d.trans h2d,
    h1e.trans h2e, h1f.trans h2f⟩

theorem Order.fill_sameCore (o : Order) (q : Nat) : SameCore (o.fill q) o := by
  unfold Order.fill
  dsimp only
  split
  · exact ⟨rfl, rfl, rfl, rfl, rfl, rfl⟩
  · exact sameCore_refl o

theorem Order.fill_status (o : Order) (q : Nat) :
    (o.fill q).status = o.status ∨ (o.fill q).status = OrderStatus.Filled ∨
      (o.fill q).status = OrderStatus.PartiallyFilled := by
  unfold Order.fill
  dsimp only
  split
  · split
    · right; left; rfl
    · right; right; rfl
  · left; rfl

theorem matchLevelLoop_incoming_core (sym : String) (p : Int) (inc : Order)
    (tid : Nat) (total : Nat) (os : List Order) :
    SameCore (matchLevelLoop sym p inc tid total os).incoming inc := by
  induction inc, tid, total, os using matchLevelLoop.induct sym p with
  | case1 inc tid total =>
      simp only [matchLevelLoop]
      exact sameCore_refl inc
  | case2 inc tid total r rest h =>
      simp only [matchLevelLoop, if_pos h]
      exact sameCore_refl inc
  | case3 inc tid total r rest h fq i2 r2 hfd ih =>
      simp only [matchLevelLoop, if_neg h] at ih ⊢
      rw [if_pos (by simpa using hfd)]
      exact sameCore_trans ih (Order.fill_sameCore inc _)
  | case4 inc tid total r rest h fq r2 hnf =>
      simp only [matchLevelLoop, if_neg h]
      rw [if_neg (by simpa using hnf)]
      exact Order.fill_sameCore inc _

theorem matchLevelLoop_status (sym : String) (p : Int) (inc : Order)
    (tid : Nat) (total : Nat) (os : List Order) :
    (matchLevelLoop sym p inc tid total os).incoming.status = inc.status ∨
      (matchLevelLoop sym p inc tid total os).incoming.status = OrderStatus.Filled ∨
      (matchLevelLoop sym p inc tid total os).incoming.status = OrderStatus.PartiallyFilled := by
  induction inc, tid, total, os using matchLevelLoop.induct sym p with
  | case1 inc tid total =>
      simp only [matchLevelLoop]
      left; trivial
  | case2 inc tid total r rest h =>
      simp only [matchLevelLoop, if_pos h]
      left; trivial
  | case3 inc tid total r rest h fq i2 r2 hfd ih =>
      simp only [matchLevelLoop, if_neg h] at ih ⊢
      rw [if_pos (by simpa using hfd)]
      rcases ih with h1 | h1 | h1
      · rcases Order.fill_status inc (inc.remaining_quantity ⊓ r.remaining_quantity) with
          h2 | h2 | h2
        · left; rw [h1, h2]
        · right; left; rw [h1, h2]
        · right; right; rw [h1, h2]
      · right; left; exact h1
      · right; right; exact h1
  | case4 inc tid total r rest h fq r2 hnf =>
      simp only [matchLevelLoop, if_neg h]
      rw [if_neg (by simpa using hnf)]
      exact Order.fill_status inc _

theorem matchBookLoop_incoming_core (sym : String) (inc : Order)
    (tid : Nat) (ls : SideBook) :
    SameCore (matchBookLoop sym inc tid ls).incoming inc := by
  induction inc, tid, ls using matchBookLoop.induct sym with
  | case1 inc tid =>
      simp only [matchBookLoop]
      exact sameCore_refl inc
  | case2 inc tid p l rest h =>
      simp only [matchBookLoop, if_pos h]
      exact sameCore_refl inc
  | case3 inc tid p l rest h hnc =>
      simp only [matchBookLoop, if_neg h, if_pos hnc]
      exact sameCore_refl inc
  | case4 inc tid p l rest h hnc r hemp ih =>
      simp only [matchBookLoop, if_neg h, if_neg hnc] at ih ⊢
      rw [if_pos (by simpa using hemp)]
      exact sameCore_trans ih (matchLevelLoop_incoming_core sym p inc tid l.total_quantity l.orders)
  | case5 inc tid p l rest h hnc r hemp =>
      simp only [matchBookLoop, if_neg h, if_neg hnc]
      rw [if_neg (by simpa using hemp)]
      exact matchLevelLoop_incoming_core sym p inc tid l.total_quantity l.orders

theorem matchBookLoop_status (sym : String) (inc : Order)
    (tid : Nat) (ls : SideBook) :
    (matchBookLoop sym inc tid ls).incoming.status = inc.status ∨
      (matchBookLoop sym inc tid ls).incoming.status = OrderStatus.Filled ∨
      (matchBookLoop sym inc tid ls).incoming.status = OrderStatus.PartiallyFilled := by
  induction inc, tid, ls using matchBookLoop.induct sym with
  | case1 inc tid =>
      simp only [matchBookLoop]
      left; trivial
  | case2 inc tid p l rest h =>
      simp only [matchBookLoop, if_pos h]
      left; trivial
  | case3 inc tid p l rest h hnc =>
      simp only [matchBookLoop, if_neg h, if_pos hnc]
      left; trivial
  | case4 inc tid p l rest h hnc r hemp ih =>
      simp only [matchBookLoop, if_neg h, if_neg hnc] at ih ⊢
      rw [if_pos (by simpa using hemp)]
      rcases ih with h1 | h1 | h1
      · rcases matchLevelLoop_status sym p inc tid l.total_quantity l.orders with h2 | h2 | h2
        · left; rw [h1, h2]
        · right; left; rw [h1, h2]
        · right; right; rw [h1, h2]
      · right; left; exact h1
      · right; right; exact h1
  | case5 inc tid p l rest h hnc r hemp =>
      simp only [matchBookLoop, if_neg h, if_neg hnc]
      rw [if_neg (by simpa using hemp)]
      exact matchLevelLoop_status sym p inc tid l.total_quantity l.orders

theorem levelLoop_V2_agrees (sym : String) (p : Int) :
    ∀ (os : List Order) (inc : Order) (tid t1 t2 : Nat),
      (matchLevelLoopV2 sym p inc tid t2 os).incoming =
        (matchLevelLoop sym p inc tid t1 os).incoming ∧
      (matchLevelLoopV2 sym p inc tid t2 os).orders =
        (matchLevelLoop sym p inc tid t1 os).orders ∧
      (matchLevelLoopV2 sym p inc tid t2 os).trades =
        (matchLevelLoop sym p inc tid t1 os).trades ∧
      (matchLevelLoopV2 sym p inc tid t2 os).tid =
        (matchLevelLoop sym p inc tid t1 os).tid := by
  intro os
  induction os with
  | nil =>
      intro inc tid t1 t2
      simp [matchLevelLoop, matchLevelLoopV2]
  | cons r rest ih =>
      intro inc tid t1 t2
      simp only [matchLevelLoop, matchLevelLoopV2]
      by_cases h0 : inc.remaining_quantity = 0
      · rw [if_pos h0, if_pos h0]
        exact ⟨rfl, rfl, rfl, rfl⟩
      · rw [if_neg h0, if_neg h0]
        by_cases hf : (r.fill (inc.remaining_quantity ⊓ r.remaining_quantity)).is_filled = true
        · rw [if_pos hf, if_pos hf]
          obtain ⟨i1, i2, i3, i4⟩ := ih
            (inc.fill (inc.remaining_quantity ⊓ r.remaining_quantity)) (tid + 1)
            (t1 - (r.fill (inc.remaining_quantity ⊓ r.remaining_quantity)).remaining_quantity)
            (t2 - (inc.remaining_quantity ⊓ r.remaining_quantity)
              - (r.fill (inc.remaining_quantity ⊓ r.remaining_quantity)).remaining_quantity)
          exact ⟨i1, i2, by dsimp only; rw [i3], i4⟩
        · rw [if_neg hf, if_neg hf]
          exact ⟨rfl, rfl, rfl, rfl⟩

theorem stripSide_nil_inv (l2 : SideBook) (h : stripSide ([] : SideBook) = stripSide l2) :
    l2 = [] := by
  cases l2 with
  | nil => rfl
  | cons pl rest => simp [stripSide] at h

theorem stripSide_cons_inv (pl : Int × PriceLevel) (ls l2 : SideBook)
    (h : stripSide (pl :: ls) = stripSide l2) :
    ∃ ql l2', l2 = ql :: l2' ∧ (ql : Int × PriceLevel).1 = pl.1 ∧
      ql.2.price = pl.2.price ∧ ql.2.orders = pl.2.orders ∧ stripSide ls = stripSide l2' := by
  cases l2 with
  | nil => simp [stripSide] at h
  | cons ql l2' =>
      simp only [stripSide, List.map_cons, List.cons.injEq, Prod.mk.injEq,
        PriceLevel.mk.injEq] at h
      refine ⟨ql, l2', rfl, h.1.1.symm, ?_, ?_, ?_⟩
      · exact h.1.2.1.symm
      · exact h.1.2.2.2.symm
      · simpa [stripSide] using h.2

theorem bookLoop_V2_agrees (sym : String) :
    ∀ (ls1 ls2 : SideBook) (inc : Order) (tid : Nat),
      stripSide ls1 = stripSide ls2 →
      (matchBookLoopV2 sym inc tid ls2).incoming = (matchBookLoop sym inc tid ls1).incoming ∧
      (matchBookLoopV2 sym inc tid ls2).tid = (matchBookLoop sym inc tid ls1).tid ∧
      stripSide (matchBookLoopV2 sym inc tid ls2).levels =
        stripSide (matchBookLoop sym inc tid ls1).levels ∧
      (matchBookLoopV2 sym inc tid ls2).trades = (matchBookLoop sym inc tid ls1).trades := by
  intro ls1
  induction ls1 with
  | nil =>
      intro ls2 inc tid h
      rw [stripSide_nil_inv ls2 h]
      simp [matchBookLoop, matchBookLoopV2]
  | cons pl ls1' ih =>
      intro ls2 inc tid h
      obtain ⟨ql, ls2', rfl, hkey, hprice, horders, htail⟩ := stripSide_cons_inv pl ls1' ls2 h
      obtain ⟨p, l⟩ := pl
      obtain ⟨q, l2⟩ := ql
      dsimp only at hkey hprice horders
      rw [hkey]
      simp only [matchBookLoop, matchBookLoopV2]
      by_cases h0 : inc.remaining_quantity = 0
      · rw [if_pos h0, if_pos h0]
        refine ⟨rfl, rfl, ?_, rfl⟩
        simp only [stripSide, List.map_cons, List.cons.injEq, Prod.mk.injEq,
          PriceLevel.mk.injEq, hprice, horders, and_true, true_and, and_self,
          eq_self_iff_true]
        simpa [stripSide] using htail.symm
      · rw [if_neg h0, if_neg h0]
        by_cases hc : prices_cross inc p = false
        · rw [if_pos hc, if_pos hc]
          refine ⟨rfl, rfl, ?_, rfl⟩
          simp only [stripSide, List.map_cons, List.cons.injEq, Prod.mk.injEq,
            PriceLevel.mk.injEq, hprice, horders, and_true, true_and, and_self,
            eq_self_iff_true]
          simpa [stripSide] using htail.symm
        · rw [if_neg hc, if_neg hc]
          rw [horders]
          obtain ⟨e1, e2, e3, e4⟩ := levelLoop_V2_agrees sym p l.orders inc tid
            l.total_quantity l2.total_quantity
          rw [e2]
          by_cases hemp :
              (matchLevelLoop sym p inc tid l.total_quantity l.orders).orders.isEmpty = true
          · rw [if_pos hemp, if_pos hemp]
            rw [e1, e4]
            obtain ⟨i1, i2, i3, i4⟩ := ih ls2'
              (matchLevelLoop sym p inc tid l.total_quantity l.orders).incoming
              (matchLevelLoop sym p inc tid l.total_quantity l.orders).tid htail
            refine ⟨i1, i2, i3, ?_⟩
            dsimp only
            rw [i4, e3]
          · rw [if_neg hemp, if_neg hemp]
            refine ⟨e1, e4, ?_, e3⟩
            simp only [stripSide, List.map_cons, List.cons.injEq, Prod.mk.injEq,
              PriceLevel.mk.injEq, hprice, and_true, true_and, and_self,
              eq_self_iff_true]
            simpa [stripSide] using htail.symm

theorem stripTotals_parts {b1 b2 : OrderBook} (h : b1.stripTotals = b2.stripTotals) :
    b1.symbol = b2.symbol ∧ b1.next_trade_id = b2.next_trade_id ∧
    stripSide b1.bids = stripSide b2.bids ∧ stripSide b1.asks = stripSide b2.asks := by
  have h1 := congrArg OrderBook.symbol h
  have h2 := congrArg OrderBook.next_trade_id h
  have h3 := congrArg OrderBook.bids h
  have h4 := congrArg OrderBook.asks h
  exact ⟨h1, h2, h3, h4⟩

theorem stripTotals_ext {b1 b2 : OrderBook} (hs : b1.symbol = b2.symbol)
    (ht : b1.next_trade_id = b2.next_trade_id)
    (hb : stripSide b1.bids = stripSide b2.bids)
    (ha : stripSide b1.asks = stripSide b2.asks) :
    b1.stripTotals = b2.stripTotals := by
  cases b1
  cases b2
  dsimp only at hs ht hb ha
  simp only [OrderBook.stripTotals, OrderBook.mk.injEq]
  exact ⟨hs, hb, ha, ht⟩

theorem stripSide_addToLevels (before : Int → Int → Bool) (price : Int) (o : Order) :
    ∀ (s1 s2 : SideBook), stripSide s1 = stripSide s2 →
      stripSide (OrderBook.addToLevels before price o s1) =
        stripSide (OrderBook.addToLevels before price o s2) := by
  intro s1
  induction s1 with
  | nil =>
      intro s2 h
      rw [stripSide_nil_inv s2 h]
  | cons pl rest ih =>
      intro s2 h
      obtain ⟨ql, s2', rfl, hkey, hprice, horders, htail⟩ := stripSide_cons_inv pl rest s2 h
      obtain ⟨p, l⟩ := pl
      obtain ⟨q, l2⟩ := ql
      dsimp only at hkey hprice horders
      rw [hkey]
      simp only [OrderBook.addToLevels]
      by_cases he : price = p
      · rw [if_pos he, if_pos he]
        simp only [stripSide, List.map_cons, PriceLevel.add_order, List.cons.injEq,
          Prod.mk.injEq, PriceLevel.mk.injEq, hprice, horders, and_true, true_and,
          and_self, eq_self_iff_true]
        simpa [stripSide] using htail
      · rw [if_neg he, if_neg he]
        by_cases hbf : before price p = true
        · rw [if_pos hbf, if_pos hbf]
          simp only [stripSide, List.map_cons, PriceLevel.add_order, List.cons.injEq,
            Prod.mk.injEq, PriceLevel.mk.injEq, hprice, horders, and_true, true_and,
            and_self, eq_self_iff_true]
          simpa [stripSide] using htail
        · rw [if_neg hbf, if_neg hbf]
          have hrec := ih s2' htail
          simp only [stripSide, List.map_cons, List.cons.injEq, Prod.mk.injEq,
            PriceLevel.mk.injEq, hprice, horders, and_true, true_and, and_self,
            eq_self_iff_true]
          simpa [stripSide] using hrec

theorem remove_order_orders (l : PriceLevel) (oid : Nat) :
    (l.remove_order oid).orders = l.orders.eraseP (fun x => x.id = oid) := by
  unfold PriceLevel.remove_order
  split
  · rfl
  · rename_i heq
    refine (List.eraseP_of_forall_not ?_).symm
    intro a ha
    simpa using List.find?_eq_none.mp heq a ha

theorem remove_order_price (l : PriceLevel) (oid : Nat) :
    (l.remove_order oid).price = l.price := by
  unfold PriceLevel.remove_order
  split <;> rfl

theorem stripSide_removeFromLevels (price : Int) (oid : Nat) :
    ∀ (s1 s2 : SideBook), stripSide s1 = stripSide s2 →
      stripSide (OrderBook.removeFromLevels price oid s1) =
        stripSide (OrderBook.removeFromLevels price oid s2) := by
  intro s1
  induction s1 with
  | nil =>
      intro s2 h
      rw [stripSide_nil_inv s2 h]
  | cons pl rest ih =>
      intro s2 h
      obtain ⟨ql, s2', rfl, hkey, hprice, horders, htail⟩ := stripSide_cons_inv pl rest s2 h
      obtain ⟨p, l⟩ := pl
      obtain ⟨q, l2⟩ := ql
      dsimp only at hkey hprice horders
      rw [hkey]
      simp only [OrderBook.removeFromLevels]
      by_cases he : p = price
      · rw [if_pos he, if_pos he]
        rw [remove_order_orders, remove_order_orders, horders]
        by_cases hemp : (l.orders.eraseP (fun x => x.id = oid)).isEmpty = true
        · rw [if_pos hemp, if_pos hemp]
          exact htail
        · rw [if_neg hemp, if_neg hemp]
          simp only [stripSide, List.map_cons, List.cons.injEq, Prod.mk.injEq,
            PriceLevel.mk.injEq, remove_order_orders, remove_order_price, hprice,
            horders, and_true, true_and, and_self, eq_self_iff_true]
          simpa [stripSide] using htail
      · rw [if_neg he, if_neg he]
        have hrec := ih s2' htail
        simp only [stripSide, List.map_cons, List.cons.injEq, Prod.mk.injEq,
          PriceLevel.mk.injEq, hprice, horders, and_true, true_and, and_self,
          eq_self_iff_true]
        simpa [stripSide] using hrec

theorem findInLevels_strip_congr (oid : Nat) :
    ∀ (s1 s2 : SideBook), stripSide s1 = stripSide s2 →
      OrderBook.findInLevels oid s1 = OrderBook.findInLevels oid s2 := by
  intro s1
  induction s1 with
  | nil =>
      intro s2 h
      rw [stripSide_nil_inv s2 h]
  | cons pl rest ih =>
      intro s2 h
      obtain ⟨ql, s2', rfl, hkey, hprice, horders, htail⟩ := stripSide_cons_inv pl rest s2 h
      obtain ⟨p, l⟩ := pl
      obtain ⟨q, l2⟩ := ql
      dsimp only at hkey hprice horders
      rw [hkey]
      simp only [OrderBook.findInLevels]
      rw [horders]
      cases hf : l.orders.find? (fun o => o.id = oid) with
      | none =>
          simp only [hf]
          exact ih s2' htail
      | some o => simp only [hf]

theorem sideOrders_strip_congr {s1 s2 : SideBook} (h : stripSide s1 = stripSide s2) :
    OrderBook.sideOrders s1 = OrderBook.sideOrders s2 := by
  induction s1 generalizing s2 with
  | nil => rw [stripSide_nil_inv s2 h]
  | cons pl rest ih =>
      obtain ⟨ql, s2', rfl, hkey, hprice, horders, htail⟩ := stripSide_cons_inv pl rest s2 h
      simp only [OrderBook.sideOrders, List.map_cons, List.flatten_cons]
      rw [horders]
      have hrec := ih htail
      simp only [OrderBook.sideOrders] at hrec
      rw [hrec]

theorem stripSide_length_congr {s1 s2 : SideBook} (h : stripSide s1 = stripSide s2) :
    s1.length = s2.length := by
  have hlen := congrArg List.length h
  simpa [stripSide] using hlen

theorem lookupOrder_strip_congr {b1 b2 : OrderBook} (h : b1.stripTotals = b2.stripTotals)
    (oid : Nat) : b1.lookupOrder oid = b2.lookupOrder oid := by
  obtain ⟨hs, ht, hb, ha⟩ := stripTotals_parts h
  unfold OrderBook.lookupOrder
  rw [findInLevels_strip_congr oid b1.bids b2.bids hb,
    findInLevels_strip_congr oid b1.asks b2.asks ha]

theorem cancel_order_strip_congr {b1 b2 : OrderBook} (h : b1.stripTotals = b2.stripTotals)
    (oid : Nat) :
    (b1.cancel_order oid).2 = (b2.cancel_order oid).2 ∧
    (b1.cancel_order oid).1.stripTotals = (b2.cancel_order oid).1.stripTotals := by
  obtain ⟨hs, ht, hb, ha⟩ := stripTotals_parts h
  unfold OrderBook.cancel_order
  rw [lookupOrder_strip_congr h oid]
  cases hl : b2.lookupOrder oid with
  | none => exact ⟨rfl, h⟩
  | some spo =>
      obtain ⟨side, price, o⟩ := spo
      dsimp only
      by_cases hc : o.status = OrderStatus.Cancelled
      · rw [if_pos hc, if_pos hc]
        exact ⟨rfl, h⟩
      · rw [if_neg hc, if_neg hc]
        by_cases hfst : o.status = OrderStatus.Filled
        · rw [if_pos hfst, if_pos hfst]
          exact ⟨rfl, h⟩
        · rw [if_neg hfst, if_neg hfst]
          cases side with
          | Buy =>
              exact ⟨rfl, stripTotals_ext hs ht
                (stripSide_removeFromLevels price oid b1.bids b2.bids hb) ha⟩
          | Sell =>
              exact ⟨rfl, stripTotals_ext hs ht hb
                (stripSide_removeFromLevels price oid b1.asks b2.asks ha)⟩

theorem add_to_book_strip_congr {b1 b2 : OrderBook} (h : b1.stripTotals = b2.stripTotals)
    (o : Order) : (b1.add_to_book o).stripTotals = (b2.add_to_book o).stripTotals := by
  obtain ⟨hs, ht, hb, ha⟩ := stripTotals_parts h
  unfold OrderBook.add_to_book
  cases o.side with
  | Buy =>
      exact stripTotals_ext hs ht
        (stripSide_addToLevels (fun x y => y < x) o.price o b1.bids b2.bids hb) ha
  | Sell =>
      exact stripTotals_ext hs ht hb
        (stripSide_addToLevels (fun x y => x < y) o.price o b1.asks b2.asks ha)

theorem match_order_strip_agrees {b1 b2 : OrderBook} (h : b1.stripTotals = b2.stripTotals)
    (inc : Order) :
    (b2.match_orderV2 inc).1 = (b1.match_order inc).1 ∧
    (b2.match_orderV2 inc).2.1.stripTotals = (b1.match_order inc).2.1.stripTotals ∧
    (b2.match_orderV2 inc).2.2 = (b1.match_order inc).2.2 := by
  obtain ⟨hs, ht, hb, ha⟩ := stripTotals_parts h
  simp only [OrderBook.match_order, OrderBook.match_orderV2]
  rw [← hs, ← ht]
  by_cases hbuy : inc.is_buy = true
  · rw [if_pos hbuy, if_pos hbuy]
    obtain ⟨e1, e2, e3, e4⟩ :=
      bookLoop_V2_agrees b1.symbol b1.asks b2.asks inc b1.next_trade_id ha
    exact ⟨e1, stripTotals_ext rfl e2 hb.symm e3, e4⟩
  · rw [if_neg hbuy, if_neg hbuy]
    obtain ⟨e1, e2, e3, e4⟩ :=
      bookLoop_V2_agrees b1.symbol b1.bids b2.bids inc b1.next_trade_id hb
    exact ⟨e1, stripTotals_ext rfl e2 e3 ha.symm, e4⟩

theorem add_order_strip_agrees {b1 b2 : OrderBook} (h : b1.stripTotals = b2.stripTotals)
    (o : Order) :
    (b2.add_orderV2 o).1 = (b1.add_order o).1 ∧
    (b2.add_orderV2 o).2.1 = (b1.add_order o).2.1 ∧
    (b2.add_orderV2 o).2.2.stripTotals = (b1.add_order o).2.2.stripTotals := by
  obtain ⟨e1, e2, e3⟩ := match_order_strip_agrees h o
  simp only [OrderBook.add_order, OrderBook.add_orderV2]
  by_cases hv : validate_order o ≠ ErrorCode.Success
  · rw [if_pos hv, if_pos hv]
    exact ⟨rfl, rfl, h.symm⟩
  · rw [if_neg hv, if_neg hv]
    rw [e1]
    by_cases hr : 0 < (b1.match_order o).1.remaining_quantity ∧
        (b1.match_order o).1.is_limit = true
    · rw [if_pos hr, if_pos hr]
      exact ⟨rfl, e3, add_to_book_strip_congr e2 ((b1.match_order o).1)⟩
    · rw [if_neg hr, if_neg hr]
      exact ⟨rfl, e3, e2⟩

theorem runBook_strip_agrees :
    ∀ (cs : List Cmd) (b1 b2 : OrderBook), b1.stripTotals = b2.stripTotals →
      (runBookV2 b2 cs).2 = (runBook b1 cs).2 ∧
      (runBookV2 b2 cs).1.stripTotals = (runBook b1 cs).1.stripTotals := by
  intro cs
  induction cs with
  | nil =>
      intro b1 b2 h
      exact ⟨rfl, h.symm⟩
  | cons c cs ih =>
      intro b1 b2 h
      cases c with
      | submit o =>
          obtain ⟨e1, e2, e3⟩ := add_order_strip_agrees h o
          obtain ⟨i1, i2⟩ := ih (b1.add_order o).2.2 (b2.add_orderV2 o).2.2 e3.symm
          simp only [runBook, runBookV2]
          refine ⟨?_, i2⟩
          rw [e2, i1]
      | cancel oid =>
          obtain ⟨e1, e2⟩ := cancel_order_strip_congr h oid
          obtain ⟨i1, i2⟩ := ih (b1.cancel_order oid).1 (b2.cancel_order oid).1 e2
          simp only [runBook, runBookV2]
          refine ⟨?_, i2⟩
          rw [e1, i1]

theorem best_bid_strip_congr {b1 b2 : OrderBook} (h : b1.stripTotals = b2.stripTotals) :
    b1.best_bid = b2.best_bid := by
  obtain ⟨hs, ht, hb, ha⟩ := stripTotals_parts h
  unfold OrderBook.best_bid
  cases hc1 : b1.bids with
  | nil =>
      rw [hc1] at hb
      rw [stripSide_nil_inv b2.bids hb]
  | cons pl rest =>
      rw [hc1] at hb
      obtain ⟨ql, s2', heq, hkey, hprice, horders, htail⟩ :=
        stripSide_cons_inv pl rest b2.bids hb
      rw [heq]
      simp [hkey]

theorem best_ask_strip_congr {b1 b2 : OrderBook} (h : b1.stripTotals = b2.stripTotals) :
    b1.best_ask = b2.best_ask := by
  obtain ⟨hs, ht, hb, ha⟩ := stripTotals_parts h
  unfold OrderBook.best_ask
  cases hc1 : b1.asks with
  | nil =>
      rw [hc1] at ha
      rw [stripSide_nil_inv b2.asks ha]
  | cons pl rest =>
      rw [hc1] at ha
      obtain ⟨ql, s2', heq, hkey, hprice, horders, htail⟩ :=
        stripSide_cons_inv pl rest b2.asks ha
      rw [heq]
      simp [hkey]

theorem spread_strip_congr {b1 b2 : OrderBook} (h : b1.stripTotals = b2.stripTotals) :
    b1.spread = b2.spread := by
  unfold OrderBook.spread
  rw [best_bid_strip_congr h, best_ask_strip_congr h]

theorem order_count_strip_congr {b1 b2 : OrderBook} (h : b1.stripTotals = b2.stripTotals) :
    b1.order_count = b2.order_count := by
  obtain ⟨hs, ht, hb, ha⟩ := stripTotals_parts h
  unfold OrderBook.order_count
  rw [sideOrders_strip_congr hb, sideOrders_strip_congr ha]

theorem bid_levels_strip_congr {b1 b2 : OrderBook} (h : b1.stripTotals = b2.stripTotals) :
    b1.bid_levels = b2.bid_levels := by
  obtain ⟨hs, ht, hb, ha⟩ := stripTotals_parts h
  unfold OrderBook.bid_levels
  exact stripSide_length_congr hb

theorem ask_levels_strip_congr {b1 b2 : OrderBook} (h : b1.stripTotals = b2.stripTotals) :
    b1.ask_levels = b2.ask_levels := by
  obtain ⟨hs, ht, hb, ha⟩ := stripTotals_parts h
  unfold OrderBook.ask_levels
  exact stripSide_length_congr ha

/-- C1.  For every reachable order-book state, every price level present in
either side index has its cached total_quantity equal to the sum of the
remaining quantities of the orders resident in that level (invariant I5);
in particular, during submission the matching loop decrements the matched
level's cached total_quantity by fill_qty on every fill, so volume_at_price
reports the sum of remainings after partial fills of resting orders.

The code violates this: the match loop of src/cpp/src/order_book.cpp never
decrements the cached total on a fill (it has no reduce_quantity call, and
`PriceLevel::remove_order` subtracts the removed order's post-fill
remaining, which is zero).  After resting Sell 100 @ 150 and submitting
Buy 40 @ 150, the lone ask level caches total_quantity 100 while the sum of
remainings is 60 — the value the repository's own test
(src/cpp/tests/test_order_book.cpp, RestingOrderPartiallyFilledStaysOnBook)
expects, and the invariant price_level.hpp documents. -/
theorem c1_level_total_not_decremented_on_fill :
    Fx.partialBook.volume_at_price Side.Sell 150 = 100 ∧
    ((OrderBook.sideOrders Fx.partialBook.asks).map Order.remaining_quantity).sum = 60 := by
  decide

/-- C7 counterexample.  The claim states a submitted market order's final
status is PartiallyFilled whenever some quantity filled.  A market buy of
50 against a resting sell of 50 fills completely: its filled quantity rises
from 0 to 50 (some quantity filled) yet its final status is Filled, not
PartiallyFilled. -/
theorem c7_market_full_fill_counterexample :
    (Fx.bookHalf.add_order Fx.mktBuy).1.filled_quantity = 50 ∧
    Fx.mktBuy.filled_quantity = 0 ∧
    (Fx.bookHalf.add_order Fx.mktBuy).1.status = OrderStatus.Filled ∧
    (Fx.bookHalf.add_order Fx.mktBuy).1.status ≠ OrderStatus.PartiallyFilled := by
  decide

/-- C10 counterexample.  The claim states the two order-book
implementations answer every query identically after any command sequence.
After submitting Sell 100 @ 150 and then Buy 40 @ 150, volume_at_price on
the ask side at 150 answers 100 under the first implementation
(src/cpp/src/order_book.cpp with the PriceLevel of src/unnamed/part_007)
but 60 under the second (src/unnamed/part_005 with the PriceLevel of
src/unnamed/part_006, whose reduce_quantity call keeps the cached total in
step). -/
theorem c10_volume_at_price_differs :
    (runBook (OrderBook.make Fx.sym) Fx.partialTrace).1.volume_at_price Side.Sell 150 = 100 ∧
    (runBookV2 (OrderBook.make Fx.sym) Fx.partialTrace).1.volume_at_price Side.Sell 150 = 60 := by
  decide

/-- C10 (amended).  The two order-book implementations — the first
(src/cpp/src/order_book.cpp with the PriceLevel of src/unnamed/part_007)
and the second (src/unnamed/part_005 with the PriceLevel of
src/unnamed/part_006) — are observationally equivalent for every sequence
of submissions and cancellations with respect to the returned trade lists
and error codes and the queries best_bid, best_ask, spread, order_count,
bid_levels and ask_levels; moreover the final books agree on everything
except the cached per-level totals (equal after zeroing them with
stripTotals).  Only volume_at_price, which reads the cached total, can
differ — see the counterexample. -/
theorem c10_equiv_except_volume_at_price (symbol : String) (cs : List Cmd) :
    (runBookV2 (OrderBook.make symbol) cs).2 = (runBook (OrderBook.make symbol) cs).2 ∧
    (runBookV2 (OrderBook.make symbol) cs).1.stripTotals =
      (runBook (OrderBook.make symbol) cs).1.stripTotals ∧
    (runBookV2 (OrderBook.make symbol) cs).1.best_bid =
      (runBook (OrderBook.make symbol) cs).1.best_bid ∧
    (runBookV2 (OrderBook.make symbol) cs).1.best_ask =
      (runBook (OrderBook.make symbol) cs).1.best_ask ∧
    (runBookV2 (OrderBook.make symbol) cs).1.spread =
      (runBook (OrderBook.make symbol) cs).1.spread ∧
    (runBookV2 (OrderBook.make symbol) cs).1.order_count =
      (runBook (OrderBook.make symbol) cs).1.order_count ∧
    (runBookV2 (OrderBook.make symbol) cs).1.bid_levels =
      (runBook (OrderBook.make symbol) cs).1.bid_levels ∧
    (runBookV2 (OrderBook.make symbol) cs).1.ask_levels =
      (runBook (OrderBook.make symbol) cs).1.ask_levels := by
  obtain ⟨h1, h2⟩ := runBook_strip_agrees cs (OrderBook.make symbol) (OrderBook.make symbol) rfl
  exact ⟨h1, h2, best_bid_strip_congr h2, best_ask_strip_congr h2, spread_strip_congr h2,
    order_count_strip_congr h2, bid_levels_strip_congr h2, ask_levels_strip_congr h2⟩

theorem validate_order_eq_success_iff (o : Order) :
    validate_order o = ErrorCode.Success ↔
      ¬(o.quantity = 0 ∨ o.symbol = "" ∨ (o.type = OrderType.Limit ∧ o.price ≤ 0)) := by
  unfold validate_order
  split_ifs with h1 h2 h3 <;> simp_all

theorem matchLevelLoop_trades (sym : String) (p : Int) (inc : Order)
    (tid : Nat) (total : Nat) (os : List Order)
    (hp : ∀ o ∈ os, o.price = p) :
    ∀ t ∈ (matchLevelLoop sym p inc tid total os).trades,
      t.aggressor_side = inc.side ∧
      ∃ o ∈ os, o.id = t.passive_order_id ∧ o.price = t.price := by
  revert hp
  induction inc, tid, total, os using matchLevelLoop.induct sym p with
  | case1 inc tid total =>
      intro hp
      simp [matchLevelLoop]
  | case2 inc tid total r rest h =>
      intro hp
      simp [matchLevelLoop, if_pos h]
  | case3 inc tid total r rest h fq i2 r2 hfd ih =>
      intro hp t ht
      simp only [matchLevelLoop, if_neg h] at ht
      rw [if_pos (by simpa using hfd)] at ht
      simp only [List.mem_cons] at ht
      rcases ht with rfl | ht
      · refine ⟨rfl, r, List.mem_cons_self r rest, ?_, ?_⟩
        · cases hside : inc.side <;>
            simp [Trade.passive_order_id, Order.is_buy, Order.is_sell, hside]
        · exact hp r (List.mem_cons_self r rest)
      · have hrest : ∀ o ∈ rest, o.price = p := fun o ho => hp o (List.mem_cons_of_mem r ho)
        obtain ⟨hside, o, ho, hid, hpr⟩ := ih hrest t ht
        have hcore := Order.fill_sameCore inc (inc.remaining_quantity ⊓ r.remaining_quantity)
        refine ⟨?_, o, List.mem_cons_of_mem r ho, hid, hpr⟩
        rw [hside, hcore.2.2.1]
  | case4 inc tid total r rest h fq r2 hnf =>
      intro hp t ht
      simp only [matchLevelLoop, if_neg h] at ht
      rw [if_neg (by simpa using hnf)] at ht
      simp only [List.mem_singleton] at ht
      subst ht
      refine ⟨rfl, r, List.mem_cons_self r rest, ?_, ?_⟩
      · cases hside : inc.side <;>
          simp [Trade.passive_order_id, Order.is_buy, Order.is_sell, hside]
      · exact hp r (List.mem_cons_self r rest)

theorem matchBookLoop_trades (sym : String) (inc : Order)
    (tid : Nat) (ls : SideBook)
    (hp : ∀ pl ∈ ls, ∀ o ∈ (pl : Int × PriceLevel).2.orders, o.price = pl.1) :
    ∀ t ∈ (matchBookLoop sym inc tid ls).trades,
      t.aggressor_side = inc.side ∧
      ∃ o ∈ OrderBook.sideOrders ls, o.id = t.passive_order_id ∧ o.price = t.price := by
  revert hp
  induction inc, tid, ls using matchBookLoop.induct sym with
  | case1 inc tid =>
      intro hp
      simp [matchBookLoop]
  | case2 inc tid p l rest h =>
      intro hp
      simp [matchBookLoop, if_pos h]
  | case3 inc tid p l rest h hnc =>
      intro hp
      simp [matchBookLoop, if_neg h, if_pos hnc]
  | case4 inc tid p l rest h hnc r hemp ih =>
      intro hp t ht
      simp only [matchBookLoop, if_neg h, if_neg hnc] at ht
      rw [if_pos (by simpa using hemp)] at ht
      simp only [List.mem_append] at ht
      have hlev : ∀ o ∈ l.orders, o.price = p :=
        fun o ho => hp (p, l) (List.mem_cons_self _ _) o ho
      rcases ht with ht | ht
      · obtain ⟨hside, o, ho, hid, hpr⟩ :=
          matchLevelLoop_trades sym p inc tid l.total_quantity l.orders hlev t ht
        refine ⟨hside, o, ?_, hid, hpr⟩
        simp [OrderBook.sideOrders]
        exact Or.inl ho
      · have hrest : ∀ pl ∈ rest, ∀ o ∈ (pl : Int × PriceLevel).2.orders, o.price = pl.1 :=
          fun pl hpl => hp pl (List.mem_cons_of_mem _ hpl)
        obtain ⟨hside, o, ho, hid, hpr⟩ := ih hrest t ht
        have hcore := matchLevelLoop_incoming_core sym p inc tid l.total_quantity l.orders
        refine ⟨by rw [hside, hcore.2.2.1], o, ?_, hid, hpr⟩
        simp [OrderBook.sideOrders] at ho ⊢
        exact Or.inr ho
  | case5 inc tid p l rest h hnc r hemp =>
      intro hp t ht
      simp only [matchBookLoop, if_neg h, if_neg hnc] at ht
      rw [if_neg (by simpa using hemp)] at ht
      have hlev : ∀ o ∈ l.orders, o.price = p :=
        fun o ho => hp (p, l) (List.mem_cons_self _ _) o ho
      obtain ⟨hside, o, ho, hid, hpr⟩ :=
        matchLevelLoop_trades sym p inc tid l.total_quantity l.orders hlev t ht
      refine ⟨hside, o, ?_, hid, hpr⟩
      simp [OrderBook.sideOrders]
      exact Or.inl ho

theorem Order.fill_filled (o : Order) (q : Nat) (h : q ≤ o.remaining_quantity) :
    (o.fill q).filled_quantity = o.filled_quantity + q := by
  unfold Order.fill
  dsimp only
  rw [min_eq_left h]
  split
  · rfl
  · omega

theorem Order.fill_remaining (o : Order) (q : Nat) (h : q ≤ o.remaining_quantity) :
    (o.fill q).remaining_quantity = o.remaining_quantity - q := by
  have hq := (Order.fill_sameCore o q).2.2.2.2.1
  have hf := Order.fill_filled o q h
  unfold Order.remaining_quantity at h ⊢
  omega

theorem Order.fill_isFilled_imp (o : Order) (q : Nat)
    (h : q ≤ o.remaining_quantity) (hf : (o.fill q).is_filled = true) :
    o.remaining_quantity = q := by
  have hq := (Order.fill_sameCore o q).2.2.2.2.1
  have hfl := Order.fill_filled o q h
  simp only [Order.is_filled, decide_eq_true_eq] at hf
  unfold Order.remaining_quantity at h ⊢
  omega

theorem sumQty_cons (t : Trade) (ts : List Trade) :
    sumQty (t :: ts) = t.quantity + sumQty ts := by
  simp [sumQty]

theorem sumQty_append (a b : List Trade) : sumQty (a ++ b) = sumQty a + sumQty b := by
  simp [sumQty]

theorem sumRem_cons (o : Order) (os : List Order) :
    sumRem (o :: os) = o.remaining_quantity + sumRem os := by
  simp [sumRem]

theorem sideRem_cons (pl : Int × PriceLevel) (rest : SideBook) :
    sideRem (pl :: rest) = sumRem pl.2.orders + sideRem rest := by
  simp [sideRem, sumRem, OrderBook.sideOrders]

theorem matchLevelLoop_conservation (sym : String) (p : Int) (inc : Order)
    (tid : Nat) (total : Nat) (os : List Order) :
    (matchLevelLoop sym p inc tid total os).incoming.filled_quantity
        = inc.filled_quantity + sumQty (matchLevelLoop sym p inc tid total os).trades ∧
    sumRem os
        = sumRem (matchLevelLoop sym p inc tid total os).orders
          + sumQty (matchLevelLoop sym p inc tid total os).trades := by
  induction inc, tid, total, os using matchLevelLoop.induct sym p with
  | case1 inc tid total =>
      simp [matchLevelLoop, sumQty, sumRem]
  | case2 inc tid total r rest h =>
      simp [matchLevelLoop, if_pos h, sumQty]
  | case3 inc tid total r rest h fq i2 r2 hfd ih =>
      unfold_let fq i2 r2 at ih hfd
      simp only [matchLevelLoop, if_neg h] at ih ⊢
      rw [if_pos (by simpa using hfd)]
      have hle1 : inc.remaining_quantity ⊓ r.remaining_quantity ≤ inc.remaining_quantity :=
        min_le_left _ _
      have hle2 : inc.remaining_quantity ⊓ r.remaining_quantity ≤ r.remaining_quantity :=
        min_le_right _ _
      have hrem : r.remaining_quantity = inc.remaining_quantity ⊓ r.remaining_quantity :=
        Order.fill_isFilled_imp r _ hle2 (by simpa using hfd)
      have hfinc := Order.fill_filled inc _ hle1
      obtain ⟨ih1, ih2⟩ := ih
      constructor
      · simp only [sumQty_cons]
        rw [ih1, hfinc]
        omega
      · simp only [sumQty_cons, sumRem_cons]
        rw [ih2]
        omega
  | case4 inc tid total r rest h fq r2 hnf =>
      simp only [matchLevelLoop, if_neg h]
      rw [if_neg (by simpa using hnf)]
      have hle1 : inc.remaining_quantity ⊓ r.remaining_quantity ≤ inc.remaining_quantity :=
        min_le_left _ _
      have hle2 : inc.remaining_quantity ⊓ r.remaining_quantity ≤ r.remaining_quantity :=
        min_le_right _ _
      have hfinc := Order.fill_filled inc _ hle1
      have hfrem := Order.fill_remaining r _ hle2
      constructor
      · simp only [sumQty_cons]
        rw [hfinc]
        simp [sumQty]
      · simp only [sumQty_cons, sumRem_cons, hfrem]
        simp [sumQty]
        omega

theorem matchBookLoop_conservation (sym : String) (inc : Order)
    (tid : Nat) (ls : SideBook) :
    (matchBookLoop sym inc tid ls).incoming.filled_quantity
        = inc.filled_quantity + sumQty (matchBookLoop sym inc tid ls).trades ∧
    sideRem ls
        = sideRem (matchBookLoop sym inc tid ls).levels
          + sumQty (matchBookLoop sym inc tid ls).trades := by
  induction inc, tid, ls using matchBookLoop.induct sym with
  | case1 inc tid =>
      simp [matchBookLoop, sumQty]
  | case2 inc tid p l rest h =>
      simp [matchBookLoop, if_pos h, sumQty]
  | case3 inc tid p l rest h hnc =>
      simp [matchBookLoop, if_neg h, if_pos hnc, sumQty]
  | case4 inc tid p l rest h hnc r hemp ih =>
      unfold_let r at ih hemp
      simp only [matchBookLoop, if_neg h, if_neg hnc] at ih ⊢
      rw [if_pos (by simpa using hemp)]
      obtain ⟨lc1, lc2⟩ := matchLevelLoop_conservation sym p inc tid l.total_quantity l.orders
      obtain ⟨ih1, ih2⟩ := ih
      have hordnil :
          (matchLevelLoop sym p inc tid l.total_quantity l.orders).orders = [] := by
        simpa [List.isEmpty_iff] using hemp
      constructor
      · simp only [sumQty_append]
        rw [ih1, lc1]
        omega
      · simp only [sumQty_append, sideRem_cons]
        rw [lc2, hordnil, ih2]
        simp [sumRem]
        omega
  | case5 inc tid p l rest h hnc r hemp =>
      unfold_let r at hemp
      simp only [matchBookLoop, if_neg h, if_neg hnc]
      rw [if_neg (by simpa using hemp)]
      obtain ⟨lc1, lc2⟩ := matchLevelLoop_conservation sym p inc tid l.total_quantity l.orders
      refine ⟨lc1, ?_⟩
      simp only [sideRem_cons]
      rw [lc2]
      omega

/-- C4.  For every submission call, the sum of the quantities of the trades
in the returned list equals the increase of the incoming order's
filled_quantity during that call, and also equals the total increase in
filled_quantity summed over the resting orders that were removed or
partially filled during that call.  The resting-side total is stated
through the drop in the sum of remaining quantities over the opposite side
(only side the call fills against): each resting order's quantity field is
untouched, so its gain in filled_quantity equals its drop in remaining, and
an order removed on full fill leaves with remaining zero, contributing
exactly its pre-call remaining. -/
theorem c4_trade_quantity_conservation (b : OrderBook) (o : Order) :
    (b.add_order o).1.filled_quantity
        = o.filled_quantity + sumQty (b.add_order o).2.1 ∧
    sideRem (OrderBook.oppositeLevels b o.side)
        = sideRem (OrderBook.oppositeLevels (b.add_order o).2.2 o.side)
          + sumQty (b.add_order o).2.1 := by
  unfold OrderBook.add_order
  split
  · simp [sumQty]
  · have hbuy := matchBookLoop_conservation b.symbol o b.next_trade_id b.asks
    have hsell := matchBookLoop_conservation b.symbol o b.next_trade_id b.bids
    unfold OrderBook.match_order
    rcases hside : o.side with _ | _
    · have hs2 : (matchBookLoop b.symbol o b.next_trade_id b.asks).incoming.side = Side.Buy := by
        rw [(matchBookLoop_incoming_core b.symbol o b.next_trade_id b.asks).2.2.1, hside]
      dsimp only
      split
      · dsimp only
        split
        · dsimp only
          simp only [OrderBook.oppositeLevels, OrderBook.add_to_book, hs2]
          exact ⟨hbuy.1, hbuy.2⟩
        · dsimp only
          simp only [OrderBook.oppositeLevels]
          exact ⟨hbuy.1, hbuy.2⟩
      · rename_i hb
        exact absurd (by simp [Order.is_buy, hside]) hb
    · have hs2 : (matchBookLoop b.symbol o b.next_trade_id b.bids).incoming.side = Side.Sell := by
        rw [(matchBookLoop_incoming_core b.symbol o b.next_trade_id b.bids).2.2.1, hside]
      dsimp only
      split
      · rename_i hb
        rw [Order.is_buy, hside] at hb
        simp at hb
      · dsimp only
        split
        · dsimp only
          simp only [OrderBook.oppositeLevels, OrderBook.add_to_book, hs2]
          exact ⟨hsell.1, hsell.2⟩
        · dsimp only
          simp only [OrderBook.oppositeLevels]
          exact ⟨hsell.1, hsell.2⟩

theorem Order.fill_status_set (o : Order) (q : Nat) (hq : 0 < q)
    (hle : q ≤ o.remaining_quantity) :
    (o.fill q).status =
      if (o.fill q).remaining_quantity = 0 then OrderStatus.Filled
      else OrderStatus.PartiallyFilled := by
  have hrem := Order.fill_remaining o q hle
  have hdef : o.remaining_quantity = o.quantity - o.filled_quantity := rfl
  have hst : (o.fill q).status =
      (if o.quantity ≤ o.filled_quantity + q then OrderStatus.Filled
       else OrderStatus.PartiallyFilled) := by
    unfold Order.fill
    dsimp only
    rw [min_eq_left hle, if_pos hq]
  by_cases hc : o.quantity ≤ o.filled_quantity + q
  · have h0 : (o.fill q).remaining_quantity = 0 := by omega
    rw [hst, if_pos hc, if_pos h0]
  · have h0 : ¬(o.fill q).remaining_quantity = 0 := by omega
    rw [hst, if_neg hc, if_neg h0]

theorem Order.fill_not_filled_pos (o : Order) (q : Nat)
    (hnf : ¬(o.fill q).is_filled = true) :
    0 < (o.fill q).remaining_quantity := by
  have hq := (Order.fill_sameCore o q).2.2.2.2.1
  simp only [Order.is_filled, decide_eq_true_eq] at hnf
  unfold Order.remaining_quantity
  omega

theorem matchLevelLoop_ids (sym : String) (p : Int) (inc : Order)
    (tid : Nat) (total : Nat) (os : List Order) :
    ∀ i ∈ ((matchLevelLoop sym p inc tid total os).orders).map Order.id,
      i ∈ os.map Order.id := by
  induction inc, tid, total, os using matchLevelLoop.induct sym p with
  | case1 inc tid total =>
      simp [matchLevelLoop]
  | case2 inc tid total r rest h =>
      simp [matchLevelLoop, if_pos h]
  | case3 inc tid total r rest h fq i2 r2 hfd ih =>
      unfold_let fq i2 r2 at ih hfd
      simp only [matchLevelLoop, if_neg h] at ih ⊢
      rw [if_pos (by simpa using hfd)]
      intro i hi
      exact List.mem_cons_of_mem _ (ih i hi)
  | case4 inc tid total r rest h fq r2 hnf =>
      unfold_let fq r2 at hnf
      simp only [matchLevelLoop, if_neg h]
      rw [if_neg (by simpa using hnf)]
      intro i hi
      simp only [List.map_cons, List.mem_cons] at hi ⊢
      rcases hi with hi | hi
      · left
        rw [hi, (Order.fill_sameCore r _).1]
      · right
        exact hi

theorem matchLevelLoop_pos (sym : String) (p : Int) (inc : Order)
    (tid : Nat) (total : Nat) (os : List Order)
    (hpos : ∀ x ∈ os, 0 < x.remaining_quantity) :
    ∀ x ∈ (matchLevelLoop sym p inc tid total os).orders, 0 < x.remaining_quantity := by
  revert hpos
  induction inc, tid, total, os using matchLevelLoop.induct sym p with
  | case1 inc tid total =>
      intro hpos
      simp [matchLevelLoop]
  | case2 inc tid total r rest h =>
      intro hpos
      simpa [matchLevelLoop, if_pos h] using hpos
  | case3 inc tid total r rest h fq i2 r2 hfd ih =>
      unfold_let fq i2 r2 at ih hfd
      intro hpos
      simp only [matchLevelLoop, if_neg h]
      rw [if_pos (by simpa using hfd)]
      exact ih (fun x hx => hpos x (List.mem_cons_of_mem r hx))
  | case4 inc tid total r rest h fq r2 hnf =>
      unfold_let fq r2 at hnf
      intro hpos
      simp only [matchLevelLoop, if_neg h]
      rw [if_neg (by simpa using hnf)]
      intro x hx
      rcases List.mem_cons.mp hx with rfl | hx
      · exact Order.fill_not_filled_pos r _ (by simpa using hnf)
      · exact hpos x (List.mem_cons_of_mem r hx)

theorem matchBookLoop_ids (sym : String) (inc : Order) (tid : Nat) (ls : SideBook) :
    ∀ i ∈ (OrderBook.sideOrders (matchBookLoop sym inc tid ls).levels).map Order.id,
      i ∈ (OrderBook.sideOrders ls).map Order.id := by
  induction inc, tid, ls using matchBookLoop.induct sym with
  | case1 inc tid =>
      simp [matchBookLoop]
  | case2 inc tid p l rest h =>
      simp [matchBookLoop, if_pos h]
  | case3 inc tid p l rest h hnc =>
      simp [matchBookLoop, if_neg h, if_pos hnc]
  | case4 inc tid p l rest h hnc r hemp ih =>
      unfold_let r at ih hemp
      simp only [matchBookLoop, if_neg h, if_neg hnc] at ih ⊢
      rw [if_pos (by simpa using hemp)]
      intro i hi
      simp only [OrderBook.sideOrders, List.map_cons, List.flatten_cons, List.map_append,
        List.mem_append]
      exact Or.inr (ih i hi)
  | case5 inc tid p l rest h hnc r hemp =>
      unfold_let r at hemp
      simp only [matchBookLoop, if_neg h, if_neg hnc]
      rw [if_neg (by simpa using hemp)]
      intro i hi
      simp only [OrderBook.sideOrders, List.map_cons, List.flatten_cons, List.map_append,
        List.mem_append] at hi ⊢
      rcases hi with hi | hi
      · exact Or.inl (matchLevelLoop_ids sym p inc tid l.total_quantity l.orders i hi)
      · exact Or.inr hi

theorem matchBookLoop_pos (sym : String) (inc : Order) (tid : Nat) (ls : SideBook)
    (hpos : ∀ x ∈ OrderBook.sideOrders ls, 0 < x.remaining_quantity) :
    ∀ x ∈ OrderBook.sideOrders (matchBookLoop sym inc tid ls).levels,
      0 < x.remaining_quantity := by
  revert hpos
  induction inc, tid, ls using matchBookLoop.induct sym with
  | case1 inc tid =>
      intro hpos
      simpa [matchBookLoop] using hpos
  | case2 inc tid p l rest h =>
      intro hpos
      simpa [matchBookLoop, if_pos h] using hpos
  | case3 inc tid p l rest h hnc =>
      intro hpos
      simpa [matchBookLoop, if_neg h, if_pos hnc] using hpos
  | case4 inc tid p l rest h hnc r hemp ih =>
      unfold_let r at ih hemp
      intro hpos
      simp only [matchBookLoop, if_neg h, if_neg hnc]
      rw [if_pos (by simpa using hemp)]
      refine ih (fun x hx => hpos x ?_)
      simp only [OrderBook.sideOrders, List.map_cons, List.flatten_cons, List.mem_append]
      exact Or.inr hx
  | case5 inc tid p l rest h hnc r hemp =>
      unfold_let r at hemp
      intro hpos
      simp only [matchBookLoop, if_neg h, if_neg hnc]
      rw [if_neg (by simpa using hemp)]
      intro x hx
      simp only [OrderBook.sideOrders, List.map_cons, List.flatten_cons, List.mem_append] at hx
      rcases hx with hx | hx
      · refine matchLevelLoop_pos sym p inc tid l.total_quantity l.orders
          (fun y hy => hpos y ?_) x hx
        simp only [OrderBook.sideOrders, List.map_cons, List.flatten_cons, List.mem_append]
        exact Or.inl hy
      · refine hpos x ?_
        simp only [OrderBook.sideOrders, List.map_cons, List.flatten_cons, List.mem_append]
        exact Or.inr hx

theorem matchLevelLoop_nil_id (sym : String) (p : Int) (inc : Order)
    (tid : Nat) (total : Nat) (os : List Order) :
    (matchLevelLoop sym p inc tid total os).trades = [] →
      matchLevelLoop sym p inc tid total os =
        { incoming := inc, total := total, orders := os, trades := [], tid := tid } := by
  induction inc, tid, total, os using matchLevelLoop.induct sym p with
  | case1 inc tid total =>
      intro h2
      simp [matchLevelLoop]
  | case2 inc tid total r rest h =>
      intro h2
      simp [matchLevelLoop, if_pos h]
  | case3 inc tid total r rest h fq i2 r2 hfd ih =>
      unfold_let fq i2 r2 at ih hfd
      simp only [matchLevelLoop, if_neg h]
      rw [if_pos (by simpa using hfd)]
      intro h2
      simp at h2
  | case4 inc tid total r rest h fq r2 hnf =>
      unfold_let fq r2 at hnf
      simp only [matchLevelLoop, if_neg h]
      rw [if_neg (by simpa using hnf)]
      intro h2
      simp at h2

theorem matchBookLoop_nil_id (sym : String) (inc : Order) (tid : Nat) (ls : SideBook)
    (hne : ∀ pl ∈ ls, (pl : Int × PriceLevel).2.orders ≠ []) :
    (matchBookLoop sym inc tid ls).trades = [] →
      matchBookLoop sym inc tid ls =
        { incoming := inc, tid := tid, levels := ls, trades := [] } := by
  revert hne
  induction inc, tid, ls using matchBookLoop.induct sym with
  | case1 inc tid =>
      intro hne h2
      simp [matchBookLoop]
  | case2 inc tid p l rest h =>
      intro hne h2
      simp [matchBookLoop, if_pos h]
  | case3 inc tid p l rest h hnc =>
      intro hne h2
      simp [matchBookLoop, if_neg h, if_pos hnc]
  | case4 inc tid p l rest h hnc r hemp ih =>
      unfold_let r at ih hemp
      intro hne
      simp only [matchBookLoop, if_neg h, if_neg hnc]
      rw [if_pos (by simpa using hemp)]
      intro h2
      simp only [List.append_eq_nil] at h2
      have hid := matchLevelLoop_nil_id sym p inc tid l.total_quantity l.orders h2.1
      rw [hid] at hemp
      simp only [List.isEmpty_iff] at hemp
      exact absurd hemp (hne (p, l) (List.mem_cons_self _ _))
  | case5 inc tid p l rest h hnc r hemp =>
      unfold_let r at hemp
      intro hne
      simp only [matchBookLoop, if_neg h, if_neg hnc]
      rw [if_neg (by simpa using hemp)]
      intro h2
      have hid := matchLevelLoop_nil_id sym p inc tid l.total_quantity l.orders h2
      rw [hid]

theorem matchLevelLoop_final_status (sym : String) (p : Int) (inc : Order)
    (tid : Nat) (total : Nat) (os : List Order)
    (hpos : ∀ x ∈ os, 0 < x.remaining_quantity) :
    (matchLevelLoop sym p inc tid total os).trades ≠ [] →
      (matchLevelLoop sym p inc tid total os).incoming.status =
        if (matchLevelLoop sym p inc tid total os).incoming.remaining_quantity = 0
        then OrderStatus.Filled else OrderStatus.PartiallyFilled := by
  revert hpos
  induction inc, tid, total, os using matchLevelLoop.induct sym p with
  | case1 inc tid total =>
      intro hpos h2
      simp [matchLevelLoop] at h2
  | case2 inc tid total r rest h =>
      intro hpos h2
      rw [matchLevelLoop] at h2
      simp [if_pos h] at h2
  | case3 inc tid total r rest h fq i2 r2 hfd ih =>
      unfold_let fq i2 r2 at ih hfd
      intro hpos h2
      have hq : 0 < inc.remaining_quantity ⊓ r.remaining_quantity := by
        have h1 : 0 < r.remaining_quantity := hpos r (List.mem_cons_self _ _)
        omega
      simp only [matchLevelLoop, if_neg h] at ih h2 ⊢
      rw [if_pos (by simpa using hfd)] at h2 ⊢
      by_cases hrec :
          (matchLevelLoop sym p (inc.fill (inc.remaining_quantity ⊓ r.remaining_quantity))
            (tid + 1)
            (total - (r.fill (inc.remaining_quantity ⊓ r.remaining_quantity)).remaining_quantity)
            rest).trades = []
      · have hid := matchLevelLoop_nil_id sym p _ _ _ _ hrec
        simp only [hid]
        exact Order.fill_status_set inc _ hq (min_le_left _ _)
      · exact ih (fun x hx => hpos x (List.mem_cons_of_mem r hx)) hrec
  | case4 inc tid total r rest h fq r2 hnf =>
      unfold_let fq r2 at hnf
      intro hpos h2
      have hq : 0 < inc.remaining_quantity ⊓ r.remaining_quantity := by
        have h1 : 0 < r.remaining_quantity := hpos r (List.mem_cons_self _ _)
        omega
      simp only [matchLevelLoop, if_neg h]
      rw [if_neg (by simpa using hnf)]
      exact Order.fill_status_set inc _ hq (min_le_left _ _)

theorem matchBookLoop_final_status (sym : String) (inc : Order)
    (tid : Nat) (ls : SideBook)
    (hpos : ∀ x ∈ OrderBook.sideOrders ls, 0 < x.remaining_quantity)
    (hne : ∀ pl ∈ ls, (pl : Int × PriceLevel).2.orders ≠ []) :
    (matchBookLoop sym inc tid ls).trades ≠ [] →
      (matchBookLoop sym inc tid ls).incoming.status =
        if (matchBookLoop sym inc tid ls).incoming.remaining_quantity = 0
        then OrderStatus.Filled else OrderStatus.PartiallyFilled := by
  revert hpos hne
  induction inc, tid, ls using matchBookLoop.induct sym with
  | case1 inc tid =>
      intro hpos hne h2
      simp [matchBookLoop] at h2
  | case2 inc tid p l rest h =>
      intro hpos hne h2
      rw [matchBookLoop] at h2
      simp [if_pos h] at h2
  | case3 inc tid p l rest h hnc =>
      intro hpos hne h2
      rw [matchBookLoop] at h2
      rw [if_neg h, if_pos hnc] at h2
      simp at h2
  | case4 inc tid p l rest h hnc r hemp ih =>
      unfold_let r at ih hemp
      intro hpos hne h2
      have hlevpos : ∀ x ∈ l.orders, 0 < x.remaining_quantity := by
        intro x hx
        refine hpos x ?_
        simp only [OrderBook.sideOrders, List.map_cons, List.flatten_cons, List.mem_append]
        exact Or.inl hx
      simp only [matchBookLoop, if_neg h, if_neg hnc] at ih h2 ⊢
      rw [if_pos (by simpa using hemp)] at h2 ⊢
      by_cases hrec :
          (matchBookLoop sym
            (matchLevelLoop sym p inc tid l.total_quantity l.orders).incoming
            (matchLevelLoop sym p inc tid l.total_quantity l.orders).tid rest).trades = []
      · have hid := matchBookLoop_nil_id sym _ _ rest
          (fun pl hpl => hne pl (List.mem_cons_of_mem _ hpl)) hrec
        simp only [hid]
        have hltr : (matchLevelLoop sym p inc tid l.total_quantity l.orders).trades ≠ [] := by
          intro hl
          have hlid := matchLevelLoop_nil_id sym p inc tid l.total_quantity l.orders hl
          rw [hlid] at hemp
          simp only [List.isEmpty_iff] at hemp
          exact absurd hemp (hne (p, l) (List.mem_cons_self _ _))
        exact matchLevelLoop_final_status sym p inc tid l.total_quantity l.orders hlevpos hltr
      · exact ih (fun x hx => hpos x (by
            simp only [OrderBook.sideOrders, List.map_cons, List.flatten_cons, List.mem_append]
            exact Or.inr hx))
          (fun pl hpl => hne pl (List.mem_cons_of_mem _ hpl)) hrec
  | case5 inc tid p l rest h hnc r hemp =>
      unfold_let r at hemp
      intro hpos hne h2
      have hlevpos : ∀ x ∈ l.orders, 0 < x.remaining_quantity := by
        intro x hx
        refine hpos x ?_
        simp only [OrderBook.sideOrders, List.map_cons, List.flatten_cons, List.mem_append]
        exact Or.inl hx
      simp only [matchBookLoop, if_neg h, if_neg hnc] at h2 ⊢
      rw [if_neg (by simpa using hemp)] at h2 ⊢
      exact matchLevelLoop_final_status sym p inc tid l.total_quantity l.orders hlevpos h2

/-- C3.  For any two orders A and B resting at the same price with A having
arrived before B, an incoming crossing order of size equal to A's remaining
fills A and not B; at a single price, later-arrived orders begin filling
only after all earlier ones at that price have been fully filled or
cancelled.  Stated with A at the head of the best opposite level (A and B in
arrival order, any later arrivals behind them): the submission emits exactly
one trade, for A's full remaining at the level price with A as the passive
order, and leaves B (and everything behind it) resting untouched, with A
removed. -/
theorem c3_fifo_within_level (b : OrderBook) (o A B : Order) (p : Int)
    (lvl : PriceLevel) (rest : SideBook) (tl : List Order)
    (hopp : OrderBook.oppositeLevels b o.side = (p, lvl) :: rest)
    (hlvl : lvl.orders = A :: B :: tl)
    (hcross : prices_cross o p = true)
    (hqty : o.remaining_quantity = A.remaining_quantity)
    (hpos : 0 < A.remaining_quantity)
    (hvalid : validate_order o = ErrorCode.Success) :
    (b.add_order o).2.1 =
      [{ id := b.next_trade_id + 1,
         buy_order_id := if o.is_buy then o.id else A.id,
         sell_order_id := if o.is_sell then o.id else A.id,
         symbol := b.symbol, price := p, quantity := A.remaining_quantity,
         aggressor_side := o.side }] ∧
    OrderBook.oppositeLevels (b.add_order o).2.2 o.side =
      (p, { lvl with orders := B :: tl }) :: rest := by
  have hrem0 : ¬o.remaining_quantity = 0 := by omega
  have hmin : o.remaining_quantity ⊓ A.remaining_quantity = A.remaining_quantity := by
    rw [hqty]; exact min_self _
  have hA0 : (A.fill A.remaining_quantity).remaining_quantity = 0 := by
    rw [Order.fill_remaining A _ (le_refl _)]; omega
  have hAfl : (A.fill A.remaining_quantity).is_filled = true := by
    simp only [Order.is_filled, decide_eq_true_eq]
    have hq := (Order.fill_sameCore A A.remaining_quantity).2.2.2.2.1
    have hf := Order.fill_filled A _ (le_refl _)
    have hdef : A.remaining_quantity = A.quantity - A.filled_quantity := rfl
    omega
  have hincrem : (o.fill A.remaining_quantity).remaining_quantity = 0 := by
    rw [Order.fill_remaining o _ (le_of_eq hqty.symm)]; omega
  have key : ∀ sym tid, matchBookLoop sym o tid ((p, lvl) :: rest) =
      { incoming := o.fill A.remaining_quantity, tid := tid + 1,
        levels := (p, { lvl with orders := B :: tl }) :: rest,
        trades := [Trade.mk (tid + 1) (if o.is_buy then o.id else A.id)
          (if o.is_sell then o.id else A.id) sym p A.remaining_quantity o.side] } := by
    intro sym tid
    simp only [matchBookLoop, if_neg hrem0]
    rw [if_neg (by simp [hcross])]
    rw [hlvl]
    simp only [matchLevelLoop, if_neg hrem0, hmin]
    rw [if_pos hAfl]
    simp only [matchLevelLoop, if_pos hincrem]
    simp [hA0]
  unfold OrderBook.add_order
  rw [if_neg (by simp [hvalid])]
  unfold OrderBook.match_order
  rcases hside : o.side with _ | _
  all_goals
    rw [hside] at hopp
    simp only [OrderBook.oppositeLevels] at hopp
  · dsimp only
    split
    · dsimp only
      rw [hopp, key]
      rw [if_neg (by dsimp only; simp [hincrem])]
      simp only [OrderBook.oppositeLevels]
      constructor
      · simp [Order.is_buy, Order.is_sell, hside]
      · trivial
    · rename_i hb
      exact absurd (by simp [Order.is_buy, hside]) hb
  · dsimp only
    split
    · rename_i hb
      rw [Order.is_buy, hside] at hb
      simp at hb
    · dsimp only
      rw [hopp, key]
      rw [if_neg (by dsimp only; simp [hincrem])]
      simp only [OrderBook.oppositeLevels]
      constructor
      · simp [Order.is_buy, Order.is_sell, hside]
      · trivial

/-- Witness for C3: submitting a buy of 50 into the book holding the queue
A then B (both sells of 50 at 150) emits exactly one trade, against A, and
leaves B alone at the level. -/
theorem c3_fifo_within_level_witness :
    (Fx.fifoBook.add_order Fx.fifoBuy).2.1 =
      [{ id := Fx.fifoBook.next_trade_id + 1,
         buy_order_id := if Fx.fifoBuy.is_buy then Fx.fifoBuy.id else Fx.fifoA.id,
         sell_order_id := if Fx.fifoBuy.is_sell then Fx.fifoBuy.id else Fx.fifoA.id,
         symbol := Fx.fifoBook.symbol, price := 150,
         quantity := Fx.fifoA.remaining_quantity,
         aggressor_side := Fx.fifoBuy.side }] ∧
    OrderBook.oppositeLevels (Fx.fifoBook.add_order Fx.fifoBuy).2.2 Fx.fifoBuy.side =
      (150, { price := 150, total_quantity := 100, orders := [Fx.fifoB] }) :: [] := by
  exact c3_fifo_within_level Fx.fifoBook Fx.fifoBuy Fx.fifoA Fx.fifoB 150
    { price := 150, total_quantity := 100, orders := [Fx.fifoA, Fx.fifoB] } [] []
    (by decide) (by decide) (by decide) (by decide) (by decide) (by decide)

/-- C2.  For every submission and every trade it emits, the trade's price
equals the price of the resting (passive) order at the moment of that fill,
never the aggressor's price, for all combinations of limit and market
incoming orders.  Stated on any book whose opposite-side levels hold orders
at the level's key price (true of every book built by the engine, which
rests an order at the key equal to its price); `Order.fill` never changes
the price field, so the resting order's price at the moment of the fill is
its price in the starting book. -/
theorem c2_trade_price_is_resting_price (b : OrderBook) (o : Order)
    (hWF : ∀ pl ∈ OrderBook.oppositeLevels b o.side,
      ∀ x ∈ (pl : Int × PriceLevel).2.orders, x.price = pl.1) :
    ∀ t ∈ (b.add_order o).2.1,
      t.aggressor_side = o.side ∧
      ∃ x ∈ OrderBook.sideOrders (OrderBook.oppositeLevels b o.side),
        x.id = t.passive_order_id ∧ x.price = t.price := by
  unfold OrderBook.add_order
  split
  · simp
  · have hmatch : ∀ t ∈ (b.match_order o).2.2,
        t.aggressor_side = o.side ∧
        ∃ x ∈ OrderBook.sideOrders (OrderBook.oppositeLevels b o.side),
          x.id = t.passive_order_id ∧ x.price = t.price := by
      unfold OrderBook.match_order
      rcases hside : o.side with _ | _
      · rw [if_pos (by simp [Order.is_buy, hside])]
        rw [hside] at hWF
        simp only [OrderBook.oppositeLevels] at hWF ⊢
        intro t ht
        obtain ⟨ha, hx⟩ := matchBookLoop_trades b.symbol o b.next_trade_id b.asks hWF t ht
        exact ⟨by rw [ha, hside], hx⟩
      · rw [if_neg (by simp [Order.is_buy, hside])]
        rw [hside] at hWF
        simp only [OrderBook.oppositeLevels] at hWF ⊢
        intro t ht
        obtain ⟨ha, hx⟩ := matchBookLoop_trades b.symbol o b.next_trade_id b.bids hWF t ht
        exact ⟨by rw [ha, hside], hx⟩
    dsimp only
    split
    · exact hmatch
    · exact hmatch

/-- Witness for C2: the single trade emitted when the market buy `mktBuy`
crosses the resting sell `sellHalf` prints at the resting price 150 and
names the resting order as its passive side. -/
theorem c2_trade_price_is_resting_price_witness :
    ({ id := 1, buy_order_id := 4, sell_order_id := 3, symbol := Fx.sym,
       price := 150, quantity := 50, aggressor_side := Side.Buy } : Trade).aggressor_side
        = Fx.mktBuy.side ∧
    ∃ x ∈ OrderBook.sideOrders (OrderBook.oppositeLevels Fx.bookHalf Fx.mktBuy.side),
      x.id = ({ id := 1, buy_order_id := 4, sell_order_id := 3, symbol := Fx.sym,
                price := 150, quantity := 50, aggressor_side := Side.Buy } : Trade).passive_order_id ∧
      x.price = 150 := by
  exact c2_trade_price_is_resting_price Fx.bookHalf Fx.mktBuy (by decide) _ (by decide)

theorem eraseP_id_clear (oid : Nat) (l : List Order)
    (hnd : (l.map Order.id).Nodup) :
    ∀ x ∈ l.eraseP (fun y => y.id = oid), x.id ≠ oid := by
  induction l with
  | nil => simp
  | cons a l ih =>
      simp only [List.map_cons, List.nodup_cons, List.mem_map] at hnd
      by_cases ha : a.id = oid
      · rw [List.eraseP_cons_of_pos (by simpa using ha)]
        intro x hx hxid
        exact hnd.1 ⟨x, hx, by rw [hxid, ha]⟩
      · rw [List.eraseP_cons_of_neg (by simpa using ha)]
        intro x hx
        rcases List.mem_cons.mp hx with rfl | hx
        · exact ha
        · exact ih hnd.2 x hx

theorem findInLevels_eq_none_iff (oid : Nat) (ls : SideBook) :
    OrderBook.findInLevels oid ls = none ↔
      ∀ x ∈ OrderBook.sideOrders ls, x.id ≠ oid := by
  induction ls with
  | nil => simp [OrderBook.findInLevels, OrderBook.sideOrders]
  | cons pl rest ih =>
      obtain ⟨p, l⟩ := pl
      simp only [OrderBook.findInLevels]
      constructor
      · intro h x hx
        rcases hf : l.orders.find? (fun o => o.id = oid) with _ | o
        · rw [hf] at h
          simp only [OrderBook.sideOrders, List.map_cons, List.flatten_cons,
            List.mem_append] at hx
          rcases hx with hx | hx
          · have := List.find?_eq_none.mp hf x hx
            simpa using this
          · exact (ih.mp h) x (by simpa [OrderBook.sideOrders] using hx)
        · rw [hf] at h
          simp at h
      · intro h
        rcases hf : l.orders.find? (fun o => o.id = oid) with _ | o
        · rw [hf]
          refine ih.mpr (fun x hx => h x ?_)
          simp only [OrderBook.sideOrders, List.map_cons, List.flatten_cons, List.mem_append]
          simp only [OrderBook.sideOrders] at hx
          exact Or.inr hx
        · exfalso
          have hmem := List.mem_of_find?_eq_some hf
          have hid := List.find?_some hf
          refine h o ?_ (by simpa using hid)
          simp only [OrderBook.sideOrders, List.map_cons, List.flatten_cons, List.mem_append]
          exact Or.inl hmem

theorem findInLevels_some_mem (oid : Nat) (ls : SideBook) (p : Int) (o : Order)
    (h : OrderBook.findInLevels oid ls = some (p, o)) :
    ∃ l, (p, l) ∈ ls ∧ o ∈ l.orders ∧ o.id = oid := by
  induction ls with
  | nil => simp [OrderBook.findInLevels] at h
  | cons pl rest ih =>
      obtain ⟨q, l⟩ := pl
      simp only [OrderBook.findInLevels] at h
      rcases hf : l.orders.find? (fun x => x.id = oid) with _ | o2
      · rw [hf] at h
        obtain ⟨l2, hl2, ho, hid⟩ := ih h
        exact ⟨l2, List.mem_cons_of_mem _ hl2, ho, hid⟩
      · rw [hf] at h
        simp only [Option.some.injEq, Prod.mk.injEq] at h
        refine ⟨l, ?_, ?_, ?_⟩
        · rw [← h.1]
          exact List.mem_cons_self _ _
        · rw [← h.2]
          exact List.mem_of_find?_eq_some hf
        · rw [← h.2]
          simpa using List.find?_some hf

theorem removeFromLevels_clears (p : Int) (oid : Nat) (ls : SideBook)
    (hk : (ls.map Prod.fst).Nodup)
    (hids : ((OrderBook.sideOrders ls).map Order.id).Nodup)
    (o : Order)
    (hf : OrderBook.findInLevels oid ls = some (p, o)) :
    ∀ x ∈ OrderBook.sideOrders (OrderBook.removeFromLevels p oid ls), x.id ≠ oid := by
  induction ls with
  | nil => simp [OrderBook.removeFromLevels, OrderBook.sideOrders]
  | cons pl rest ih =>
      obtain ⟨q, l⟩ := pl
      simp only [List.map_cons, List.nodup_cons] at hk
      have hidsl : ((l.orders ++ OrderBook.sideOrders rest).map Order.id).Nodup := by
        simpa [OrderBook.sideOrders] using hids
      rw [List.map_append] at hidsl
      have hndl : (l.orders.map Order.id).Nodup := hidsl.of_append_left
      have hndr : ((OrderBook.sideOrders rest).map Order.id).Nodup := hidsl.of_append_right
      have hdisj := List.disjoint_of_nodup_append hidsl
      simp only [OrderBook.findInLevels] at hf
      simp only [OrderBook.removeFromLevels]
      rcases hfo : l.orders.find? (fun x => x.id = oid) with _ | o2
      · -- the head level does not hold the id; the hit is deeper, at a key ≠ q
        rw [hfo] at hf
        have hpq : ¬q = p := by
          intro hqp
          obtain ⟨l2, hl2, _, _⟩ := findInLevels_some_mem oid rest p o hf
          exact hk.1 (by simpa [hqp] using List.mem_map_of_mem Prod.fst hl2)
        rw [if_neg hpq]
        intro x hx
        simp only [OrderBook.sideOrders, List.map_cons, List.flatten_cons,
          List.mem_append] at hx
        rcases hx with hx | hx
        · have := List.find?_eq_none.mp hfo x hx
          simpa using this
        · exact ih hk.2 hndr hf x (by simpa [OrderBook.sideOrders] using hx)
      · -- the head level holds the id: q = p, remove here
        rw [hfo] at hf
        simp only [Option.some.injEq, Prod.mk.injEq] at hf
        rw [if_pos hf.1]
        have hclear := eraseP_id_clear oid l.orders hndl
        have hrest : ∀ x ∈ OrderBook.sideOrders rest, x.id ≠ oid := by
          intro x hx hxid
          refine hdisj (a := oid) ?_ ?_
          · have hido2 : o2.id = oid := by simpa using List.find?_some hfo
            rw [← hido2]
            exact List.mem_map_of_mem Order.id (List.mem_of_find?_eq_some hfo)
          · rw [← hxid]
            exact List.mem_map_of_mem Order.id hx
        have hl2 : ∀ x ∈ (l.remove_order oid).orders, x.id ≠ oid := by
          unfold PriceLevel.remove_order
          rw [hfo]
          exact hclear
        split
        · exact hrest
        · intro x hx
          simp only [OrderBook.sideOrders, List.map_cons, List.flatten_cons,
            List.mem_append] at hx
          rcases hx with hx | hx
          · exact hl2 x hx
          · exact hrest x (by simpa [OrderBook.sideOrders] using hx)

theorem sideOrders_addToLevels (before : Int → Int → Bool) (price : Int)
    (o : Order) (ls : SideBook) :
    ∀ x ∈ OrderBook.sideOrders (OrderBook.addToLevels before price o ls),
      x ∈ OrderBook.sideOrders ls ∨ x = o := by
  induction ls with
  | nil =>
      intro x hx
      simp only [OrderBook.addToLevels, OrderBook.sideOrders, PriceLevel.add_order,
        List.map_cons, List.map_nil, List.flatten_cons, List.flatten_nil,
        List.nil_append, List.append_nil, List.mem_singleton] at hx
      exact Or.inr hx
  | cons pl rest ih =>
      obtain ⟨q, l⟩ := pl
      intro x hx
      simp only [OrderBook.addToLevels] at hx
      by_cases h1 : price = q
      · rw [if_pos h1] at hx
        simp only [OrderBook.sideOrders, PriceLevel.add_order, List.map_cons,
          List.flatten_cons, List.mem_append, List.mem_singleton] at hx ⊢
        rcases hx with (hx | rfl) | hx
        · exact Or.inl (Or.inl hx)
        · exact Or.inr rfl
        · exact Or.inl (Or.inr hx)
      · rw [if_neg h1] at hx
        by_cases h2 : before price q
        · rw [if_pos h2] at hx
          simp only [OrderBook.sideOrders, PriceLevel.add_order, List.map_cons,
            List.flatten_cons, List.mem_append, List.nil_append,
            List.mem_singleton] at hx ⊢
          rcases hx with rfl | hx
          · exact Or.inr rfl
          · exact Or.inl hx
        · rw [if_neg h2] at hx
          simp only [OrderBook.sideOrders, List.map_cons, List.flatten_cons,
            List.mem_append] at hx ⊢
          rcases hx with hx | hx
          · exact Or.inl (Or.inl hx)
          · rcases ih x (by simpa [OrderBook.sideOrders] using hx) with hx2 | hx2
            · exact Or.inl (Or.inr (by simpa [OrderBook.sideOrders] using hx2))
            · exact Or.inr hx2

theorem add_order_keeps_positive (b : OrderBook) (o : Order)
    (hbids : ∀ x ∈ OrderBook.sideOrders b.bids, 0 < x.remaining_quantity)
    (hasks : ∀ x ∈ OrderBook.sideOrders b.asks, 0 < x.remaining_quantity) :
    (∀ x ∈ OrderBook.sideOrders (b.add_order o).2.2.bids, 0 < x.remaining_quantity) ∧
    (∀ x ∈ OrderBook.sideOrders (b.add_order o).2.2.asks, 0 < x.remaining_quantity) := by
  unfold OrderBook.add_order
  split
  · exact ⟨hbids, hasks⟩
  · unfold OrderBook.match_order
    split
    · dsimp only
      split
      · rename_i hrest
        constructor
        · intro x hx
          unfold OrderBook.add_to_book at hx
          rcases hs : (matchBookLoop b.symbol o b.next_trade_id b.asks).incoming.side with _ | _
          all_goals rw [hs] at hx
          · dsimp only at hx
            rcases sideOrders_addToLevels _ _ _ _ x hx with hx2 | rfl
            · exact hbids x hx2
            · exact hrest.1
          · dsimp only at hx
            exact hbids x hx
        · intro x hx
          unfold OrderBook.add_to_book at hx
          rcases hs : (matchBookLoop b.symbol o b.next_trade_id b.asks).incoming.side with _ | _
          all_goals rw [hs] at hx
          · dsimp only at hx
            exact matchBookLoop_pos b.symbol o b.next_trade_id b.asks hasks x hx
          · dsimp only at hx
            rcases sideOrders_addToLevels _ _ _ _ x hx with hx2 | rfl
            · exact matchBookLoop_pos b.symbol o b.next_trade_id b.asks hasks x hx2
            · exact hrest.1
      · exact ⟨hbids, matchBookLoop_pos b.symbol o b.next_trade_id b.asks hasks⟩
    · dsimp only
      split
      · rename_i hrest
        constructor
        · intro x hx
          unfold OrderBook.add_to_book at hx
          rcases hs : (matchBookLoop b.symbol o b.next_trade_id b.bids).incoming.side with _ | _
          all_goals rw [hs] at hx
          · dsimp only at hx
            rcases sideOrders_addToLevels _ _ _ _ x hx with hx2 | rfl
            · exact matchBookLoop_pos b.symbol o b.next_trade_id b.bids hbids x hx2
            · exact hrest.1
          · dsimp only at hx
            exact matchBookLoop_pos b.symbol o b.next_trade_id b.bids hbids x hx
        · intro x hx
          unfold OrderBook.add_to_book at hx
          rcases hs : (matchBookLoop b.symbol o b.next_trade_id b.bids).incoming.side with _ | _
          all_goals rw [hs] at hx
          · dsimp only at hx
            exact hasks x hx
          · dsimp only at hx
            rcases sideOrders_addToLevels _ _ _ _ x hx with hx2 | rfl
            · exact hasks x hx2
            · exact hrest.1
      · exact ⟨matchBookLoop_pos b.symbol o b.next_trade_id b.bids hbids, hasks⟩

/-- C7 (amended).  For every valid submitted market order (fresh, status
New), any residual quantity after matching is discarded and the order never
rests in the book (submission adds no resident id); its final status is
Filled if it fully filled, PartiallyFilled if some but not all quantity
filled, and New if nothing filled — in particular, a market order submitted
against an empty opposite side yields no trades, status New, and an
unchanged book.  The status clause is stated on books whose resident
opposite-side orders have positive remaining and whose levels are non-empty
(spec invariants I4 and I2, which every book built by the engine
satisfies). -/
theorem c7_market_order_residual_discarded (b : OrderBook) (o : Order)
    (hmkt : o.type = OrderType.Market)
    (hvalid : validate_order o = ErrorCode.Success)
    (hnew : o.status = OrderStatus.New)
    (hI4 : ∀ x ∈ OrderBook.sideOrders (OrderBook.oppositeLevels b o.side),
      0 < x.remaining_quantity)
    (hI2 : ∀ pl ∈ OrderBook.oppositeLevels b o.side,
      (pl : Int × PriceLevel).2.orders ≠ []) :
    (∀ i ∈ (b.add_order o).2.2.residentIds, i ∈ b.residentIds) ∧
    ((b.add_order o).2.1 = [] →
      (b.add_order o).1 = o ∧ (b.add_order o).1.status = OrderStatus.New ∧
      (b.add_order o).2.2 = b) ∧
    ((b.add_order o).2.1 ≠ [] →
      (b.add_order o).1.status =
        if (b.add_order o).1.remaining_quantity = 0 then OrderStatus.Filled
        else OrderStatus.PartiallyFilled) ∧
    (OrderBook.oppositeLevels b o.side = [] →
      (b.add_order o).2.1 = [] ∧ (b.add_order o).1 = o ∧ (b.add_order o).2.2 = b) := by
  unfold OrderBook.add_order
  rw [if_neg (by simp [hvalid])]
  unfold OrderBook.match_order
  rcases hside : o.side with _ | _
  all_goals
    rw [hside] at hI4 hI2
    simp only [OrderBook.oppositeLevels] at hI4 hI2 ⊢
  · have hlim : (matchBookLoop b.symbol o b.next_trade_id b.asks).incoming.is_limit = false := by
      simp only [Order.is_limit]
      rw [(matchBookLoop_incoming_core b.symbol o b.next_trade_id b.asks).2.2.2.1, hmkt]
      simp
    split
    · dsimp only
      rw [if_neg (by simp [hlim])]
      refine ⟨?_, ?_, ?_, ?_⟩
      · intro i hi
        simp only [OrderBook.residentIds, List.map_append, List.mem_append] at hi ⊢
        rcases hi with hi | hi
        · exact Or.inl hi
        · exact Or.inr (matchBookLoop_ids b.symbol o b.next_trade_id b.asks i hi)
      · intro h2
        have hid := matchBookLoop_nil_id b.symbol o b.next_trade_id b.asks hI2 h2
        rw [hid]
        exact ⟨rfl, hnew, rfl⟩
      · intro h2
        exact matchBookLoop_final_status b.symbol o b.next_trade_id b.asks hI4 hI2 h2
      · intro h2
        rw [h2]
        simp only [matchBookLoop]
        exact ⟨by trivial, by trivial, by rw [← h2]⟩
    · rename_i hb
      exact absurd (by simp [Order.is_buy, hside]) hb
  · have hlim : (matchBookLoop b.symbol o b.next_trade_id b.bids).incoming.is_limit = false := by
      simp only [Order.is_limit]
      rw [(matchBookLoop_incoming_core b.symbol o b.next_trade_id b.bids).2.2.2.1, hmkt]
      simp
    split
    · rename_i hb
      rw [Order.is_buy, hside] at hb
      simp at hb
    · dsimp only
      rw [if_neg (by simp [hlim])]
      refine ⟨?_, ?_, ?_, ?_⟩
      · intro i hi
        simp only [OrderBook.residentIds, List.map_append, List.mem_append] at hi ⊢
        rcases hi with hi | hi
        · exact Or.inl (matchBookLoop_ids b.symbol o b.next_trade_id b.bids i hi)
        · exact Or.inr hi
      · intro h2
        have hid := matchBookLoop_nil_id b.symbol o b.next_trade_id b.bids hI2 h2
        rw [hid]
        exact ⟨rfl, hnew, rfl⟩
      · intro h2
        exact matchBookLoop_final_status b.symbol o b.next_trade_id b.bids hI4 hI2 h2
      · intro h2
        rw [h2]
        simp only [matchBookLoop]
        exact ⟨by trivial, by trivial, by rw [← h2]⟩

/-- Witness for C7 (amended): the market buy of 50 that fully crosses the
resting sell of 50 emits a trade and ends Filled (its remaining is zero);
applying the amended claim at this input yields exactly that status. -/
theorem c7_market_order_residual_discarded_witness :
    (Fx.bookHalf.add_order Fx.mktBuy).1.status =
      if (Fx.bookHalf.add_order Fx.mktBuy).1.remaining_quantity = 0
      then OrderStatus.Filled else OrderStatus.PartiallyFilled := by
  exact (c7_market_order_residual_discarded Fx.bookHalf Fx.mktBuy
    (by decide) (by decide) (by decide) (by decide) (by decide)).2.2.1 (by decide)

theorem prices_cross_core {a b : Order} (h : SameCore a b) (p : Int) :
    prices_cross a p = prices_cross b p := by
  obtain ⟨_, _, hside, htype, _, hprice⟩ := h
  simp [prices_cross, Order.is_market, Order.is_buy, hside, htype, hprice]

theorem matchLevelLoop_stop (sym : String) (p : Int) (inc : Order)
    (tid : Nat) (total : Nat) (os : List Order) :
    (matchLevelLoop sym p inc tid total os).orders ≠ [] →
      (matchLevelLoop sym p inc tid total os).incoming.remaining_quantity = 0 := by
  induction inc, tid, total, os using matchLevelLoop.induct sym p with
  | case1 inc tid total =>
      intro h2
      simp [matchLevelLoop] at h2
  | case2 inc tid total r rest h =>
      intro h2
      simp only [matchLevelLoop, if_pos h]
      exact h
  | case3 inc tid total r rest h fq i2 r2 hfd ih =>
      unfold_let fq i2 r2 at ih hfd
      intro h2
      simp only [matchLevelLoop, if_neg h] at ih h2 ⊢
      rw [if_pos (by simpa using hfd)] at h2 ⊢
      exact ih h2
  | case4 inc tid total r rest h fq r2 hnf =>
      unfold_let fq r2 at hnf
      intro h2
      simp only [matchLevelLoop, if_neg h]
      rw [if_neg (by simpa using hnf)]
      have hpos := Order.fill_not_filled_pos r _ (by simpa using hnf)
      have hrr := Order.fill_remaining r (inc.remaining_quantity ⊓ r.remaining_quantity)
        (min_le_right _ _)
      have heq : inc.remaining_quantity ⊓ r.remaining_quantity = inc.remaining_quantity := by
        omega
      rw [heq]
      exact Order.fill_remaining inc _ (le_refl _) ▸ by omega

theorem matchBookLoop_keys_suffix (sym : String) (inc : Order) (tid : Nat) (ls : SideBook) :
    ((matchBookLoop sym inc tid ls).levels.map Prod.fst) <:+ (ls.map Prod.fst) := by
  induction inc, tid, ls using matchBookLoop.induct sym with
  | case1 inc tid =>
      simp [matchBookLoop]
  | case2 inc tid p l rest h =>
      simp [matchBookLoop, if_pos h]
  | case3 inc tid p l rest h hnc =>
      simp [matchBookLoop, if_neg h, if_pos hnc]
  | case4 inc tid p l rest h hnc r hemp ih =>
      unfold_let r at ih hemp
      simp only [matchBookLoop, if_neg h, if_neg hnc] at ih ⊢
      rw [if_pos (by simpa using hemp)]
      exact ih.trans (List.suffix_cons p (rest.map Prod.fst))
  | case5 inc tid p l rest h hnc r hemp =>
      unfold_let r at hemp
      simp only [matchBookLoop, if_neg h, if_neg hnc]
      rw [if_neg (by simpa using hemp)]
      simp

theorem matchBookLoop_stop (sym : String) (inc : Order) (tid : Nat) (ls : SideBook) :
    (matchBookLoop sym inc tid ls).levels = [] ∨
    (matchBookLoop sym inc tid ls).incoming.remaining_quantity = 0 ∨
    (∃ p2 l2 rest2, (matchBookLoop sym inc tid ls).levels = (p2, l2) :: rest2 ∧
      prices_cross inc p2 = false) := by
  induction inc, tid, ls using matchBookLoop.induct sym with
  | case1 inc tid =>
      left
      simp [matchBookLoop]
  | case2 inc tid p l rest h =>
      right; left
      simp only [matchBookLoop, if_pos h]
      exact h
  | case3 inc tid p l rest h hnc =>
      right; right
      refine ⟨p, l, rest, ?_, by simpa using hnc⟩
      simp [matchBookLoop, if_neg h, if_pos hnc]
  | case4 inc tid p l rest h hnc r hemp ih =>
      unfold_let r at ih hemp
      simp only [matchBookLoop, if_neg h, if_neg hnc] at ih ⊢
      rw [if_pos (by simpa using hemp)]
      rcases ih with ih | ih | ⟨p2, l2, rest2, hlev, hcr⟩
      · left; exact ih
      · right; left; exact ih
      · right; right
        refine ⟨p2, l2, rest2, hlev, ?_⟩
        rw [← hcr]
        exact (prices_cross_core
          (matchLevelLoop_incoming_core sym p inc tid l.total_quantity l.orders) p2).symm
  | case5 inc tid p l rest h hnc r hemp =>
      unfold_let r at hemp
      right; left
      simp only [matchBookLoop, if_neg h, if_neg hnc]
      rw [if_neg (by simpa using hemp)]
      refine matchLevelLoop_stop sym p inc tid l.total_quantity l.orders ?_
      simpa [List.isEmpty_iff] using hemp

theorem addToLevels_keys_mem (before : Int → Int → Bool) (price : Int)
    (o : Order) (ls : SideBook) :
    ∀ k ∈ (OrderBook.addToLevels before price o ls).map Prod.fst,
      k = price ∨ k ∈ ls.map Prod.fst := by
  induction ls with
  | nil =>
      intro k hk
      simp only [OrderBook.addToLevels, List.map_cons, List.map_nil,
        List.mem_singleton] at hk
      exact Or.inl hk
  | cons pl rest ih =>
      obtain ⟨q, l⟩ := pl
      intro k hk
      simp only [OrderBook.addToLevels] at hk
      by_cases h1 : price = q
      · rw [if_pos h1] at hk
        simp only [List.map_cons, List.mem_cons] at hk ⊢
        exact Or.inr hk
      · rw [if_neg h1] at hk
        by_cases h2 : before price q
        · rw [if_pos h2] at hk
          simp only [List.map_cons, List.mem_cons] at hk ⊢
          rcases hk with rfl | hk
          · exact Or.inl rfl
          · exact Or.inr hk
        · rw [if_neg h2] at hk
          simp only [List.map_cons, List.mem_cons] at hk ⊢
          rcases hk with rfl | hk
          · exact Or.inr (Or.inl rfl)
          · rcases ih k hk with hk2 | hk2
            · exact Or.inl hk2
            · exact Or.inr (Or.inr hk2)

theorem addToLevels_keys_pairwise (before : Int → Int → Bool)
    (R : Int → Int → Prop)
    (htrans : ∀ a c d, R a c → R c d → R a d)
    (hbt : ∀ a c, before a c = true → R a c)
    (hbf : ∀ a c, before a c = false → a ≠ c → R c a)
    (price : Int) (o : Order) (ls : SideBook)
    (hp : List.Pairwise R (ls.map Prod.fst)) :
    List.Pairwise R ((OrderBook.addToLevels before price o ls).map Prod.fst) := by
  induction ls with
  | nil =>
      simp [OrderBook.addToLevels]
  | cons pl rest ih =>
      obtain ⟨q, l⟩ := pl
      simp only [List.map_cons, List.pairwise_cons] at hp
      simp only [OrderBook.addToLevels]
      by_cases h1 : price = q
      · rw [if_pos h1]
        simp only [List.map_cons, List.pairwise_cons]
        exact hp
      · rw [if_neg h1]
        by_cases h2 : before price q
        · rw [if_pos h2]
          simp only [List.map_cons, List.pairwise_cons]
          refine ⟨?_, hp.1, hp.2⟩
          intro k hk
          rcases List.mem_cons.mp hk with rfl | hk
          · exact hbt price k h2
          · exact htrans price q k (hbt price q h2) (hp.1 k hk)
        · rw [if_neg h2]
          simp only [List.map_cons, List.pairwise_cons]
          refine ⟨?_, ih hp.2⟩
          intro k hk
          rcases addToLevels_keys_mem before price o rest k hk with rfl | hk2
          · exact hbf k q (by simpa using h2) h1
          · exact hp.1 k hk2

theorem removeFromLevels_keys_sublist (price : Int) (oid : Nat) (ls : SideBook) :
    List.Sublist ((OrderBook.removeFromLevels price oid ls).map Prod.fst)
      (ls.map Prod.fst) := by
  induction ls with
  | nil => simp [OrderBook.removeFromLevels]
  | cons pl rest ih =>
      obtain ⟨q, l⟩ := pl
      simp only [OrderBook.removeFromLevels]
      by_cases h1 : q = price
      · rw [if_pos h1]
        split
        · simp only [List.map_cons]
          exact (List.sublist_cons_self q (rest.map Prod.fst)).trans (List.Sublist.refl _)
        · simp only [List.map_cons]
          exact List.Sublist.cons₂ q (List.Sublist.refl _)
      · rw [if_neg h1]
        simp only [List.map_cons]
        exact List.Sublist.cons₂ q ih

theorem inv_add_order (b : OrderBook) (o : Order)
    (hsb : List.Pairwise (fun x y => y < x) (b.bids.map Prod.fst))
    (hsa : List.Pairwise (fun x y => x < y) (b.asks.map Prod.fst))
    (hnc : NoCross b) :
    List.Pairwise (fun x y => y < x) ((b.add_order o).2.2.bids.map Prod.fst) ∧
    List.Pairwise (fun x y => x < y) ((b.add_order o).2.2.asks.map Prod.fst) ∧
    NoCross (b.add_order o).2.2 := by
  unfold OrderBook.add_order
  split
  · exact ⟨hsb, hsa, hnc⟩
  · unfold OrderBook.match_order
    split
    all_goals rename_i hb
    · -- incoming buy: sweep the asks
      have hside : o.side = Side.Buy := by simpa [Order.is_buy] using hb
      have hcore := matchBookLoop_incoming_core b.symbol o b.next_trade_id b.asks
      have hsuf := matchBookLoop_keys_suffix b.symbol o b.next_trade_id b.asks
      have hsa2 : List.Pairwise (fun x y => x < y)
          ((matchBookLoop b.symbol o b.next_trade_id b.asks).levels.map Prod.fst) :=
        hsa.sublist hsuf.sublist
      have hsub := hsuf.sublist.subset
      dsimp only
      split
      · rename_i hrest
        have hside2 : (matchBookLoop b.symbol o b.next_trade_id b.asks).incoming.side
            = Side.Buy := by rw [hcore.2.2.1, hside]
        unfold OrderBook.add_to_book
        rw [hside2]
        dsimp only
        have hbidmem := addToLevels_keys_mem (fun x y => y < x)
          (matchBookLoop b.symbol o b.next_trade_id b.asks).incoming.price
          (matchBookLoop b.symbol o b.next_trade_id b.asks).incoming b.bids
        refine ⟨?_, hsa2, ?_⟩
        · refine addToLevels_keys_pairwise _ _ ?_ ?_ ?_ _ _ _ hsb
          · intro a c d h1 h2
            omega
          · intro a c h1
            simpa using h1
          · intro a c h1 h2
            simp only [decide_eq_false_iff_not, not_lt] at h1
            omega
        · intro bp hbp ap hap
          rcases hbidmem bp hbp with rfl | hbp2
          · -- the freshly rested bid at the incoming order's price
            rw [hcore.2.2.2.2.2]
            rcases matchBookLoop_stop b.symbol o b.next_trade_id b.asks with
              hnil | h0 | ⟨p2, l2, rest2, hlev, hcr⟩
            · rw [hnil] at hap
              simp at hap
            · exact absurd h0 (by omega)
            · have hlim : o.type = OrderType.Limit := by
                have := hrest.2
                rw [Order.is_limit, hcore.2.2.2.1] at this
                simpa using this
              have hop : o.price < p2 := by
                unfold prices_cross at hcr
                rw [Order.is_market, Order.is_buy, hlim, hside] at hcr
                simpa using hcr
              rw [hlev] at hap hsa2
              simp only [List.map_cons, List.mem_cons] at hap
              simp only [List.map_cons, List.pairwise_cons] at hsa2
              rcases hap with rfl | hap
              · exact hop
              · have := hsa2.1 ap hap
                omega
          · exact hnc bp hbp2 ap (hsub hap)
      · refine ⟨hsb, hsa2, ?_⟩
        intro bp hbp ap hap
        exact hnc bp hbp ap (hsub hap)
    · -- incoming sell: sweep the bids
      have hside : o.side = Side.Sell := by
        rcases hs : o.side with _ | _
        · rw [Order.is_buy, hs] at hb
          simp at hb
        · rfl
      have hcore := matchBookLoop_incoming_core b.symbol o b.next_trade_id b.bids
      have hsuf := matchBookLoop_keys_suffix b.symbol o b.next_trade_id b.bids
      have hsb2 : List.Pairwise (fun x y => y < x)
          ((matchBookLoop b.symbol o b.next_trade_id b.bids).levels.map Prod.fst) :=
        hsb.sublist hsuf.sublist
      have hsub := hsuf.sublist.subset
      dsimp only
      split
      · rename_i hrest
        have hside2 : (matchBookLoop b.symbol o b.next_trade_id b.bids).incoming.side
            = Side.Sell := by rw [hcore.2.2.1, hside]
        unfold OrderBook.add_to_book
        rw [hside2]
        dsimp only
        have haskmem := addToLevels_keys_mem (fun x y => x < y)
          (matchBookLoop b.symbol o b.next_trade_id b.bids).incoming.price
          (matchBookLoop b.symbol o b.next_trade_id b.bids).incoming b.asks
        refine ⟨hsb2, ?_, ?_⟩
        · refine addToLevels_keys_pairwise _ _ ?_ ?_ ?_ _ _ _ hsa
          · intro a c d h1 h2
            omega
          · intro a c h1
            simpa using h1
          · intro a c h1 h2
            simp only [decide_eq_false_iff_not, not_lt] at h1
            omega
        · intro bp hbp ap hap
          rcases haskmem ap hap with rfl | hap2
          · rw [hcore.2.2.2.2.2]
            rcases matchBookLoop_stop b.symbol o b.next_trade_id b.bids with
              hnil | h0 | ⟨p2, l2, rest2, hlev, hcr⟩
            · rw [hnil] at hbp
              simp at hbp
            · exact absurd h0 (by omega)
            · have hlim : o.type = OrderType.Limit := by
                have := hrest.2
                rw [Order.is_limit, hcore.2.2.2.1] at this
                simpa using this
              have hop : p2 < o.price := by
                unfold prices_cross at hcr
                rw [Order.is_market, Order.is_buy, hlim, hside] at hcr
                simpa using hcr
              rw [hlev] at hbp hsb2
              simp only [List.map_cons, List.mem_cons] at hbp
              simp only [List.map_cons, List.pairwise_cons] at hsb2
              rcases hbp with rfl | hbp
              · exact hop
              · have := hsb2.1 bp hbp
                omega
          · exact hnc bp (hsub hbp) ap hap2
      · refine ⟨hsb2, hsa, ?_⟩
        intro bp hbp ap hap
        exact hnc bp (hsub hbp) ap hap

theorem inv_cancel_order (b : OrderBook) (oid : Nat)
    (hsb : List.Pairwise (fun x y => y < x) (b.bids.map Prod.fst))
    (hsa : List.Pairwise (fun x y => x < y) (b.asks.map Prod.fst))
    (hnc : NoCross b) :
    List.Pairwise (fun x y => y < x) ((b.cancel_order oid).1.bids.map Prod.fst) ∧
    List.Pairwise (fun x y => x < y) ((b.cancel_order oid).1.asks.map Prod.fst) ∧
    NoCross (b.cancel_order oid).1 := by
  unfold OrderBook.cancel_order
  rcases hl : b.lookupOrder oid with _ | ⟨side, price, o'⟩
  · exact ⟨hsb, hsa, hnc⟩
  · dsimp only
    split_ifs
    · exact ⟨hsb, hsa, hnc⟩
    · exact ⟨hsb, hsa, hnc⟩
    · rcases side with _ | _
      · dsimp only
        have hsubl := removeFromLevels_keys_sublist price oid b.bids
        exact ⟨hsb.sublist hsubl, hsa,
          fun bp hbp ap hap => hnc bp (hsubl.subset hbp) ap hap⟩
      · dsimp only
        have hsubl := removeFromLevels_keys_sublist price oid b.asks
        exact ⟨hsb, hsa.sublist hsubl,
          fun bp hbp ap hap => hnc bp hbp ap (hsubl.subset hap)⟩

theorem reachable_inv (b : OrderBook) (h : Reachable b) :
    List.Pairwise (fun x y => y < x) (b.bids.map Prod.fst) ∧
    List.Pairwise (fun x y => x < y) (b.asks.map Prod.fst) ∧
    NoCross b := by
  induction h with
  | make sym =>
      refine ⟨?_, ?_, ?_⟩ <;> simp [OrderBook.make, NoCross]
  | add o hb ih =>
      exact inv_add_order _ o ih.1 ih.2.1 ih.2.2
  | cancel oid hb ih =>
      exact inv_cancel_order _ oid ih.1 ih.2.1 ih.2.2

/-- C8.  For every state reachable between operations, any bid price b
present in the bids index and any ask price a present in the asks index
satisfy b < a: every submission and cancellation preserves the property
that the book never crosses at rest (spec invariant I3). -/
theorem c8_book_never_crosses_at_rest (b : OrderBook) (h : Reachable b) : NoCross b :=
  (reachable_inv b h).2.2

/-- Witness for C8 on the reachable two-sided book: its bid price 150 sits
below its ask price 151. -/
theorem c8_book_never_crosses_at_rest_witness :
    NoCross Fx.twoSided ∧ (150 : Int) < 151 := by
  have h := c8_book_never_crosses_at_rest Fx.twoSided
    (Reachable.add Fx.bid150 (Reachable.add Fx.ask151 (Reachable.make Fx.sym)))
  exact ⟨h, h 150 (by decide) 151 (by decide)⟩

theorem matchBookLoop_no_cross (sym : String) (inc : Order) (tid : Nat) (ls : SideBook)
    (h : ∀ pl ∈ ls, prices_cross inc (pl : Int × PriceLevel).1 = false) :
    matchBookLoop sym inc tid ls =
      { incoming := inc, tid := tid, levels := ls, trades := [] } := by
  cases ls with
  | nil => simp [matchBookLoop]
  | cons pl rest =>
      obtain ⟨p, l⟩ := pl
      simp only [matchBookLoop]
      by_cases h0 : inc.remaining_quantity = 0
      · rw [if_pos h0]
      · rw [if_neg h0, if_pos (h (p, l) (List.mem_cons_self _ _))]

theorem findInLevels_addToLevels (before : Int → Int → Bool) (price : Int)
    (o : Order) (ls : SideBook)
    (hid : ∀ x ∈ OrderBook.sideOrders ls, x.id ≠ o.id) :
    OrderBook.findInLevels o.id (OrderBook.addToLevels before price o ls) =
      some (price, o) := by
  induction ls with
  | nil =>
      simp [OrderBook.addToLevels, OrderBook.findInLevels, PriceLevel.add_order]
  | cons pl rest ih =>
      obtain ⟨q, l⟩ := pl
      have hlhd : ∀ x ∈ l.orders, x.id ≠ o.id := by
        intro x hx
        refine hid x ?_
        simp only [OrderBook.sideOrders, List.map_cons, List.flatten_cons, List.mem_append]
        exact Or.inl hx
      have hlfind : l.orders.find? (fun x => x.id = o.id) = none :=
        List.find?_eq_none.mpr (fun x hx => by simpa using hlhd x hx)
      simp only [OrderBook.addToLevels]
      by_cases h1 : price = q
      · rw [if_pos h1]
        simp only [OrderBook.findInLevels, PriceLevel.add_order]
        rw [List.find?_append, hlfind]
        simp [h1]
      · rw [if_neg h1]
        by_cases h2 : before price q
        · rw [if_pos h2]
          simp [OrderBook.findInLevels, PriceLevel.add_order]
        · rw [if_neg h2]
          simp only [OrderBook.findInLevels]
          rw [hlfind]
          refine ih (fun x hx => hid x ?_)
          simp only [OrderBook.sideOrders, List.map_cons, List.flatten_cons, List.mem_append]
          exact Or.inr (by simpa [OrderBook.sideOrders] using hx)

theorem removeFromLevels_addToLevels (before : Int → Int → Bool) (price : Int)
    (o : Order) (ls : SideBook)
    (hid : ∀ x ∈ OrderBook.sideOrders ls, x.id ≠ o.id)
    (hne : ∀ pl ∈ ls, (pl : Int × PriceLevel).2.orders ≠ []) :
    OrderBook.removeFromLevels price o.id (OrderBook.addToLevels before price o ls) = ls := by
  induction ls with
  | nil =>
      simp [OrderBook.addToLevels, OrderBook.removeFromLevels, PriceLevel.add_order,
        PriceLevel.remove_order]
  | cons pl rest ih =>
      obtain ⟨q, l⟩ := pl
      have hlhd : ∀ x ∈ l.orders, x.id ≠ o.id := by
        intro x hx
        refine hid x ?_
        simp only [OrderBook.sideOrders, List.map_cons, List.flatten_cons, List.mem_append]
        exact Or.inl hx
      have hlfind : l.orders.find? (fun x => x.id = o.id) = none :=
        List.find?_eq_none.mpr (fun x hx => by simpa using hlhd x hx)
      simp only [OrderBook.addToLevels]
      by_cases h1 : price = q
      · rw [if_pos h1]
        simp only [OrderBook.removeFromLevels, if_pos h1.symm]
        have hfind2 : (l.orders ++ [o]).find? (fun x => x.id = o.id) = some o := by
          rw [List.find?_append, hlfind]
          simp
        have hrm : ((l.add_order o).remove_order o.id) =
            { price := l.price, total_quantity := l.total_quantity, orders := l.orders } := by
          unfold PriceLevel.remove_order PriceLevel.add_order
          dsimp only
          rw [hfind2]
          rw [List.eraseP_append_right _ (fun x hx => by simpa using hlhd x hx)]
          simp
        rw [hrm]
        rw [if_neg (by simpa using hne (q, l) (List.mem_cons_self _ _))]
      · rw [if_neg h1]
        by_cases h2 : before price q
        · rw [if_pos h2]
          simp only [OrderBook.removeFromLevels, if_pos rfl]
          unfold PriceLevel.remove_order PriceLevel.add_order
          simp
        · rw [if_neg h2]
          simp only [OrderBook.removeFromLevels]
          rw [if_neg (fun hqp => h1 hqp.symm)]
          rw [ih (fun x hx => hid x (by
            simp only [OrderBook.sideOrders, List.map_cons, List.flatten_cons, List.mem_append]
            exact Or.inr (by simpa [OrderBook.sideOrders] using hx)))
            (fun pl hpl => hne pl (List.mem_cons_of_mem _ hpl))]

/-- C9.  For every book state and every valid limit order whose price does
not cross the opposite side, submitting that order and then cancelling it
by its id returns the book to its prior state: the same price levels with
the same cached totals on both sides, and the same domain of by_id — here
literally the same `OrderBook` value.  Stated for a fresh order (status
New, nothing filled) whose id is not already resident, on books whose
levels are non-empty (invariant I2): the submission emits no trades and
returns the order unchanged, and the cancellation reports Success and
restores the original book. -/
theorem c9_submit_cancel_roundtrip (b : OrderBook) (o : Order)
    (hvalid : validate_order o = ErrorCode.Success)
    (hlimit : o.type = OrderType.Limit)
    (hnew : o.status = OrderStatus.New)
    (hfresh : o.filled_quantity = 0)
    (hid : ∀ x ∈ OrderBook.sideOrders b.bids ++ OrderBook.sideOrders b.asks, x.id ≠ o.id)
    (hnc : ∀ pl ∈ OrderBook.oppositeLevels b o.side,
      prices_cross o (pl : Int × PriceLevel).1 = false)
    (hneb : ∀ pl ∈ b.bids, (pl : Int × PriceLevel).2.orders ≠ [])
    (hnea : ∀ pl ∈ b.asks, (pl : Int × PriceLevel).2.orders ≠ []) :
    (b.add_order o).1 = o ∧ (b.add_order o).2.1 = [] ∧
    ((b.add_order o).2.2).cancel_order o.id = (b, ErrorCode.Success) := by
  have hq0 : ¬(o.quantity = 0 ∨ o.symbol = "" ∨ (o.type = OrderType.Limit ∧ o.price ≤ 0)) :=
    (validate_order_eq_success_iff o).mp hvalid
  have hrpos : 0 < o.remaining_quantity := by
    have : o.remaining_quantity = o.quantity - o.filled_quantity := rfl
    have hq : o.quantity ≠ 0 := fun hc => hq0 (Or.inl hc)
    omega
  have hidb : ∀ x ∈ OrderBook.sideOrders b.bids, x.id ≠ o.id :=
    fun x hx => hid x (List.mem_append.mpr (Or.inl hx))
  have hida : ∀ x ∈ OrderBook.sideOrders b.asks, x.id ≠ o.id :=
    fun x hx => hid x (List.mem_append.mpr (Or.inr hx))
  unfold OrderBook.add_order
  rw [if_neg (by simp [hvalid])]
  unfold OrderBook.match_order
  split
  all_goals rename_i hb
  · have hside : o.side = Side.Buy := by simpa [Order.is_buy] using hb
    have hnca : ∀ pl ∈ b.asks, prices_cross o (pl : Int × PriceLevel).1 = false := by
      rw [hside] at hnc
      simpa [OrderBook.oppositeLevels] using hnc
    rw [matchBookLoop_no_cross b.symbol o b.next_trade_id b.asks hnca]
    dsimp only
    rw [if_pos ⟨hrpos, by simp [Order.is_limit, hlimit]⟩]
    refine ⟨rfl, rfl, ?_⟩
    unfold OrderBook.add_to_book
    rw [hside]
    dsimp only
    unfold OrderBook.cancel_order OrderBook.lookupOrder
    dsimp only
    rw [findInLevels_addToLevels _ _ _ _ hidb]
    dsimp only
    rw [if_neg (by simp [hnew]), if_neg (by simp [hnew])]
    rw [removeFromLevels_addToLevels _ _ _ _ hidb hneb]
  · have hside : o.side = Side.Sell := by
      rcases hs : o.side with _ | _
      · rw [Order.is_buy, hs] at hb
        simp at hb
      · rfl
    have hncb : ∀ pl ∈ b.bids, prices_cross o (pl : Int × PriceLevel).1 = false := by
      rw [hside] at hnc
      simpa [OrderBook.oppositeLevels] using hnc
    rw [matchBookLoop_no_cross b.symbol o b.next_trade_id b.bids hncb]
    dsimp only
    rw [if_pos ⟨hrpos, by simp [Order.is_limit, hlimit]⟩]
    refine ⟨rfl, rfl, ?_⟩
    unfold OrderBook.add_to_book
    rw [hside]
    dsimp only
    unfold OrderBook.cancel_order OrderBook.lookupOrder
    dsimp only
    rw [(findInLevels_eq_none_iff o.id b.bids).mpr hidb]
    rw [findInLevels_addToLevels _ _ _ _ hida]
    dsimp only
    rw [if_neg (by simp [hnew]), if_neg (by simp [hnew])]
    rw [removeFromLevels_addToLevels _ _ _ _ hida hnea]

/-- Witness for C9: a buy of 10 at 149 under the resting ask at 151 rests
and is then cancelled, returning the book to the one-ask state. -/
theorem c9_submit_cancel_roundtrip_witness :
    (Fx.askBook.add_order Fx.bid149).1 = Fx.bid149 ∧
    (Fx.askBook.add_order Fx.bid149).2.1 = [] ∧
    ((Fx.askBook.add_order Fx.bid149).2.2).cancel_order Fx.bid149.id =
      (Fx.askBook, ErrorCode.Success) := by
  exact c9_submit_cancel_roundtrip Fx.askBook Fx.bid149
    (by decide) (by decide) (by decide) (by decide)
    (by decide) (by decide) (by decide) (by decide)

/-- C5.  Cancellation of an id that is not in by_id returns OrderNotFound
and leaves the book unchanged; a second cancel of a previously successfully
cancelled id returns OrderNotFound (not OrderAlreadyCancelled), because the
successful cancel erased the id from by_id; and cancelling the id of an
order that was fully filled during matching returns OrderNotFound (not
OrderAlreadyFilled), because the match loop's removal path also erases the
id: after any submission into a book whose residents have positive
remaining (invariant I4), every remaining resident is strictly unfilled, so
a fully filled order is no longer resident and its cancel takes the
unknown-id path.  The second-cancel part is stated for books with distinct
resident ids and distinct level keys (true of every book the engine
builds). -/
theorem c5_cancel_erased_ids :
    (∀ (b : OrderBook) (oid : Nat), b.lookupOrder oid = none →
      b.cancel_order oid = (b, ErrorCode.OrderNotFound)) ∧
    (∀ (b b2 : OrderBook) (oid : Nat),
      (b.residentIds).Nodup →
      (b.bids.map Prod.fst).Nodup →
      (b.asks.map Prod.fst).Nodup →
      b.cancel_order oid = (b2, ErrorCode.Success) →
      b2.lookupOrder oid = none ∧
      b2.cancel_order oid = (b2, ErrorCode.OrderNotFound)) ∧
    (∀ (b : OrderBook) (o : Order),
      (∀ x ∈ OrderBook.sideOrders b.bids, 0 < x.remaining_quantity) →
      (∀ x ∈ OrderBook.sideOrders b.asks, 0 < x.remaining_quantity) →
      ∀ x ∈ OrderBook.sideOrders (b.add_order o).2.2.bids ++
          OrderBook.sideOrders (b.add_order o).2.2.asks,
        x.is_filled = false) := by
  have hnotfound : ∀ (b : OrderBook) (oid : Nat), b.lookupOrder oid = none →
      b.cancel_order oid = (b, ErrorCode.OrderNotFound) := by
    intro b oid h
    unfold OrderBook.cancel_order
    rw [h]
  refine ⟨hnotfound, ?_, ?_⟩
  · intro b b2 oid hU hKb hKa hc
    have hUm : ((OrderBook.sideOrders b.bids).map Order.id ++
        (OrderBook.sideOrders b.asks).map Order.id).Nodup := by
      simpa [OrderBook.residentIds, List.map_append] using hU
    have hUb := hUm.of_append_left
    have hUa := hUm.of_append_right
    have hdisj := List.disjoint_of_nodup_append hUm
    unfold OrderBook.cancel_order at hc
    rcases hl : b.lookupOrder oid with _ | ⟨side, price, o'⟩
    · rw [hl] at hc
      simp at hc
    · rw [hl] at hc
      dsimp only at hc
      split_ifs at hc with h1 h2
      · simp at hc
      · simp at hc
      · simp only [Prod.mk.injEq] at hc
        unfold OrderBook.lookupOrder at hl
        rcases hfb : OrderBook.findInLevels oid b.bids with _ | ⟨pb, ob⟩
        · rw [hfb] at hl
          rcases hfa : OrderBook.findInLevels oid b.asks with _ | ⟨pa, oa⟩
          · rw [hfa] at hl
            simp at hl
          · rw [hfa] at hl
            simp only [Option.some.injEq, Prod.mk.injEq] at hl
            obtain ⟨hside, hprice, _⟩ := hl
            rw [← hside, ← hprice] at hc
            have hb2 : b2 = { b with asks := OrderBook.removeFromLevels pa oid b.asks } := by
              rw [← hc.1]
            have hclean := removeFromLevels_clears pa oid b.asks hKa hUa oa hfa
            have hnone2 : b2.lookupOrder oid = none := by
              unfold OrderBook.lookupOrder
              rw [hb2]
              dsimp only
              rw [hfb, (findInLevels_eq_none_iff oid _).mpr hclean]
            exact ⟨hnone2, hnotfound b2 oid hnone2⟩
        · rw [hfb] at hl
          simp only [Option.some.injEq, Prod.mk.injEq] at hl
          obtain ⟨hside, hprice, _⟩ := hl
          rw [← hside, ← hprice] at hc
          have hb2 : b2 = { b with bids := OrderBook.removeFromLevels pb oid b.bids } := by
            rw [← hc.1]
          have hoid_bids : oid ∈ (OrderBook.sideOrders b.bids).map Order.id := by
            obtain ⟨l2, hl2, ho, hid⟩ := findInLevels_some_mem oid b.bids pb ob hfb
            rw [← hid]
            refine List.mem_map_of_mem Order.id ?_
            simp only [OrderBook.sideOrders, List.mem_flatten]
            exact ⟨l2.orders, List.mem_map_of_mem (fun pl => pl.2.orders) hl2, ho⟩
          have hclean := removeFromLevels_clears pb oid b.bids hKb hUb ob hfb
          have hnone2 : b2.lookupOrder oid = none := by
            unfold OrderBook.lookupOrder
            rw [hb2]
            dsimp only
            rw [(findInLevels_eq_none_iff oid _).mpr hclean]
            have hanone : OrderBook.findInLevels oid b.asks = none := by
              refine (findInLevels_eq_none_iff oid _).mpr ?_
              intro x hx hxid
              exact hdisj hoid_bids (by rw [← hxid]; exact List.mem_map_of_mem Order.id hx)
            rw [hanone]
          exact ⟨hnone2, hnotfound b2 oid hnone2⟩
  · intro b o hbids hasks x hx
    obtain ⟨hb2, ha2⟩ := add_order_keeps_positive b o hbids hasks
    have hxpos : 0 < x.remaining_quantity := by
      rcases List.mem_append.mp hx with hx | hx
      · exact hb2 x hx
      · exact ha2 x hx
    simp only [Order.is_filled, decide_eq_false_iff_not]
    have : x.remaining_quantity = x.quantity - x.filled_quantity := rfl
    omega

/-- Witness for C5: cancelling an unknown id on a fresh book yields
OrderNotFound with the book unchanged; cancelling the already-cancelled
id 3 yields OrderNotFound; and after the partial-fill submission the
resident sell (id 1, 40 filled of 100) is not filled — the fully filled
buy left no resident. -/
theorem c5_cancel_erased_ids_witness :
    (OrderBook.make Fx.sym).cancel_order 99 =
      (OrderBook.make Fx.sym, ErrorCode.OrderNotFound) ∧
    (Fx.bookHalf.cancel_order 3).1.cancel_order 3 =
      ((Fx.bookHalf.cancel_order 3).1, ErrorCode.OrderNotFound) ∧
    ({ id := 1, symbol := Fx.sym, side := Side.Sell, type := OrderType.Limit,
       quantity := 100, filled_quantity := 40, price := 150,
       status := OrderStatus.PartiallyFilled } : Order).is_filled = false := by
  refine ⟨?_, ?_, ?_⟩
  · exact c5_cancel_erased_ids.1 (OrderBook.make Fx.sym) 99 (by decide)
  · exact (c5_cancel_erased_ids.2.1 Fx.bookHalf (Fx.bookHalf.cancel_order 3).1 3
      (by decide) (by decide) (by decide) (by decide)).2
  · exact c5_cancel_erased_ids.2.2
      (((OrderBook.make Fx.sym).add_order Fx.sellBig).2.2) Fx.buySmall
      (by decide) (by decide) _ (by decide)

/-- C6.  For every submitted order with quantity zero, or with an empty
symbol, or that is a limit order with price ≤ 0, submission sets the
order's status to Rejected, returns an empty trade list, and leaves the
book state (both side indices, by_id, and the trade-id counter) unchanged;
any order passing these three checks is not rejected (stated for a
caller-fresh order, status New, as spec §4.3.1 supplies: the engine never
sets Rejected after a passing validation, so the returned status is New,
PartiallyFilled or Filled). -/
theorem c6_validation_gate (b : OrderBook) (o : Order) :
    (o.quantity = 0 ∨ o.symbol = "" ∨ (o.type = OrderType.Limit ∧ o.price ≤ 0) →
      b.add_order o = ({ o with status := OrderStatus.Rejected }, [], b)) ∧
    (¬(o.quantity = 0 ∨ o.symbol = "" ∨ (o.type = OrderType.Limit ∧ o.price ≤ 0)) →
      o.status = OrderStatus.New →
      (b.add_order o).1.status ≠ OrderStatus.Rejected) := by
  constructor
  · intro hbad
    have hv : validate_order o ≠ ErrorCode.Success := by
      intro hs
      exact (validate_order_eq_success_iff o).mp hs hbad
    unfold OrderBook.add_order
    rw [if_pos hv]
  · intro hok hnew
    have hv : validate_order o = ErrorCode.Success :=
      (validate_order_eq_success_iff o).mpr hok
    unfold OrderBook.add_order
    rw [if_neg (by simp [hv])]
    have hstat :
        (b.match_order o).1.status = o.status ∨
        (b.match_order o).1.status = OrderStatus.Filled ∨
        (b.match_order o).1.status = OrderStatus.PartiallyFilled := by
      unfold OrderBook.match_order
      split_ifs <;> exact matchBookLoop_status _ _ _ _
    dsimp only
    split
    · rcases hstat with h | h | h <;> simp [h, hnew]
    · rcases hstat with h | h | h <;> simp [h, hnew]

/-- Witness for C6 at a concrete input: a zero-quantity order is rejected
with the book untouched, and a well-formed order is not rejected. -/
theorem c6_validation_gate_witness :
    ((OrderBook.make Fx.sym).add_order
        { id := 9, symbol := Fx.sym, side := Side.Buy, type := OrderType.Limit,
          quantity := 0, filled_quantity := 0, price := 5, status := OrderStatus.New }
      = ({ id := 9, symbol := Fx.sym, side := Side.Buy, type := OrderType.Limit,
           quantity := 0, filled_quantity := 0, price := 5, status := OrderStatus.Rejected },
         [], OrderBook.make Fx.sym)) ∧
    ((OrderBook.make Fx.sym).add_order Fx.sellBig).1.status ≠ OrderStatus.Rejected := by
  constructor
  · exact (c6_validation_gate (OrderBook.make Fx.sym) _).1 (by decide)
  · exact (c6_validation_gate (OrderBook.make Fx.sym) Fx.sellBig).2 (by decide) (by decide)

end OrderBookEngine
